import Mathlib

/-!
Shallow embedding of `workspaces/docs-site/utils/align_markdown_tables.py`.

Lines are modelled as `List Char` (one physical line, no newline).  The
pure core of `process_file` is exposed as `alignDocument`, following the
spec's interface contract `alignDocument(lines) -> (newLines, changed)`;
the file write in `process_file` happens exactly when the returned flag
is true (`writesBack`).

Iterative loops of the source are embedded as fuel-indexed structural
recursions so that every definition is kernel-computable.  The fuel is
always sufficient for the translated loop: the row scanner and the
absorb/run scanners consume at least one character per step (fuel =
input length), and the `find_tables` scan visits each line index at most
twice (a revisit can only happen after a degenerate table whose header
opens a fence on the second visit), so fuel `2*n+1` suffices.  All
universally quantified theorems below are loop invariants that hold for
every fuel value, so no "fuel large enough" hypothesis appears in them.
-/

set_option autoImplicit false

/-- The backtick character, written via its code point. -/
def tickChar : Char := Char.ofNat 96

/-- Whitespace as recognised by Python's `str.strip()` (ASCII subset;
lines are newline-free but the full set is kept). -/
def pySpace (c : Char) : Bool :=
  c = ' ' || c = '\t' || c = '\n' || c = '\r' || c = Char.ofNat 11 || c = Char.ofNat 12

/-- Python `str.lstrip()`. -/
def lstrip (s : List Char) : List Char := s.dropWhile pySpace

/-- Python `str.rstrip()`. -/
def rstrip (s : List Char) : List Char := (s.reverse.dropWhile pySpace).reverse

/-- Python `str.strip()`. -/
def trim (s : List Char) : List Char := rstrip (lstrip s)

/-- Leading-backtick-run scanner: counts the backticks at the head of the
list and returns the rest (the `while s[j] == backtick` loop in
`split_row`). -/
def tickRun : List Char → Nat × List Char
  | [] => (0, [])
  | c :: r => if c = tickChar then let p := tickRun r; (p.1 + 1, p.2) else (0, c :: r)

/-- `split_row`'s boundary normalisation: strip, then drop one optional
leading and one optional trailing pipe. -/
def stripOuterPipes (line : List Char) : List Char :=
  let s := trim line
  let s := if s.head? = some '|' then s.tail else s
  if s.getLast? = some '|' then s.dropLast else s

/-- The character scan loop of `split_row`.  State: remaining input,
cell buffer `buf`, committed `cells`, `in_code` flag and `code_tick_len`
(two separate fields, as in the source).  Branch order follows the
source: escaped pipe, backtick run, separator, default append.  Fuel
decreases by one per step while each step consumes at least one
character, so `fuel = input length` never runs out. -/
def splitRowGo : Nat → List Char → List Char → List (List Char) → Bool → Option Nat → List (List Char)
  | _, [], buf, cells, _, _ => cells ++ [trim buf]
  | 0, _ :: _, buf, cells, _, _ => cells ++ [trim buf]
  | fuel+1, c :: rest, buf, cells, in_code, code_tick_len =>
    if c = '\\' ∧ rest.head? = some '|' then
      splitRowGo fuel rest.tail (buf ++ ['\\', '|']) cells in_code code_tick_len
    else if c = tickChar then
      let p := tickRun rest
      let ticks := List.replicate (p.1 + 1) tickChar
      if in_code = false then
        splitRowGo fuel p.2 (buf ++ ticks) cells true (some (p.1 + 1))
      else if code_tick_len = some (p.1 + 1) then
        splitRowGo fuel p.2 (buf ++ ticks) cells false none
      else
        splitRowGo fuel p.2 (buf ++ ticks) cells in_code code_tick_len
    else if c = '|' ∧ in_code = false then
      splitRowGo fuel rest [] (cells ++ [trim buf]) in_code code_tick_len
    else
      splitRowGo fuel rest (buf ++ [c]) cells in_code code_tick_len

/-- `split_row`: split a pipe-table row into (trimmed) cells. -/
def split_row (line : List Char) : List (List Char) :=
  let s := stripOuterPipes line
  splitRowGo s.length s [] [] false none

/-- `is_delimiter_cell`: accept `---`, `:---`, `---:`, `:---:` (the
colon slicing `c[1:-1]`, `c[1:]`, `c[:-1]` is `tail`/`dropLast`). -/
def is_delimiter_cell (cell : List Char) : Bool :=
  if cell.isEmpty then false
  else
    let c := trim cell
    let left := c.head? = some ':'
    let right := c.getLast? = some ':'
    let core :=
      if left ∧ right then (c.tail).dropLast
      else if left then c.tail
      else if right then c.dropLast
      else c
    let core := trim core
    decide (3 ≤ core.length) && core.all (fun ch => ch = '-')

/-- `is_delimiter_row`. -/
def is_delimiter_row (line : List Char) : Bool :=
  if !(line.contains '|') then false
  else
    let cells := split_row line
    decide (2 ≤ cells.length) && cells.all is_delimiter_cell

/-- Fence marker kind (the source stores the marker string `"``` "` or
`"~~~"`; only its identity matters). -/
inductive Marker
  | backtick
  | tilde
deriving DecidableEq

/-- Fence-tracking state of `find_tables` (`in_fence`, `fence_marker`). -/
structure FenceSt where
  in_fence : Bool
  fence_marker : Option Marker
deriving DecidableEq

/-- Does the line start (after `lstrip`) with three copies of `c`?
(Python `startswith("```")` / `startswith("~~~")`.) -/
def lead3 (c : Char) (l : List Char) : Bool :=
  match l with
  | a :: b :: d :: _ => a = c && b = c && d = c
  | _ => false

/-- Which fence marker, if any, a line starts with. -/
def fenceMarkerOf (line : List Char) : Option Marker :=
  let stripped := lstrip line
  if lead3 tickChar stripped then some .backtick
  else if lead3 '~' stripped then some .tilde
  else none

/-- `toggle_fence`. -/
def toggle_fence (st : FenceSt) (line : List Char) : FenceSt :=
  match fenceMarkerOf line with
  | none => st
  | some m =>
    if st.in_fence = false then ⟨true, some m⟩
    else if st.fence_marker = some m then ⟨false, none⟩
    else st

/-- The absorb-loop's stop test for fences (`lstrip().startswith` on
either marker). -/
def startsFenceOf (line : List Char) : Bool := (fenceMarkerOf line).isSome

/-- One line is absorbed by the table-consuming loop iff it is
non-blank, contains a pipe and does not begin a code fence. -/
def absorbable (line : List Char) : Bool :=
  !(trim line).isEmpty && line.contains '|' && !startsFenceOf line

/-- Length of the absorbed run: the `while j < len(lines)` loop of
`find_tables`, applied to the suffix starting at the header line. -/
def absorbCount : List (List Char) → Nat
  | [] => 0
  | l :: r => if absorbable l then absorbCount r + 1 else 0

/-- `Table` record: `start`/`end` (inclusive, `end` as in the source is
`j - 1` and can be `start - 1` for a degenerate detection) and the
tokenized rows. -/
structure Table where
  start : Nat
  end_ : Int
  rows : List (List (List Char))
deriving DecidableEq

/-- Main scan loop of `find_tables`.  The fence state is toggled before
the in-fence test, exactly as in the source; on detection the scan
resumes at `end + 1 = i + cnt`. -/
def ftGo (L : List (List Char)) : Nat → Nat → FenceSt → List Table → List Table
  | 0, _, _, acc => acc
  | fuel+1, i, st, acc =>
    if i < L.length then
      let st' := toggle_fence st (L.getD i [])
      if st'.in_fence then ftGo L fuel (i+1) st' acc
      else if (L.getD i []).contains '|' && decide (i+1 < L.length)
              && is_delimiter_row (L.getD (i+1) []) then
        let cnt := absorbCount (L.drop i)
        let t : Table := ⟨i, (i : Int) + cnt - 1, (List.range' i cnt).map (fun k => split_row (L.getD k []))⟩
        ftGo L fuel (i + cnt) st' (acc ++ [t])
      else ftGo L fuel (i+1) st' acc
    else acc

/-- `find_tables`. -/
def find_tables (L : List (List Char)) : List Table :=
  ftGo L (2 * L.length + 1) 0 ⟨false, none⟩ []

/-- Python `max` over a list of naturals (callers only apply it to
non-empty lists, where the `0` default is irrelevant). -/
def maxFold (l : List Nat) : Nat := l.foldl max 0

/-- Python `str.ljust`. -/
def ljust (s : List Char) (w : Nat) : List Char :=
  s ++ List.replicate (w - s.length) ' '

/-- `"| " + " | ".join(parts) + " |"`. -/
def renderCells (parts : List (List Char)) : List Char :=
  ('|' :: ' ' :: []) ++ List.intercalate (' ' :: '|' :: ' ' :: []) parts ++ (' ' :: '|' :: [])

/-- `ncols = max(len(r) for r in table.rows)`. -/
def ncolsOf (t : Table) : Nat := maxFold (t.rows.map List.length)

/-- `rows = [r + [""] * (ncols - len(r)) for r in table.rows]`. -/
def paddedRows (t : Table) : List (List (List Char)) :=
  t.rows.map (fun r => r ++ List.replicate (ncolsOf t - r.length) [])

/-- Alignment flags extracted from the (padded) delimiter row `rows[1]`. -/
def alignsOf (t : Table) : List (Bool × Bool) :=
  ((paddedRows t).getD 1 []).map
    (fun c => let cs := trim c; (cs.head? = some ':', cs.getLast? = some ':'))

/-- Column widths: fold over all rows except index 1, then floor at 3. -/
def widthsOf (t : Table) : List Nat :=
  (((paddedRows t).enum.foldl
      (fun ws p => if p.1 = 1 then ws else List.zipWith max ws (p.2.map List.length))
      (List.replicate (ncolsOf t) 0)).map (fun w => max w 3))

/-- Re-synthesised delimiter cell for one column: a dash run of the
column width with `:` substituted at the ends per the alignment flags. -/
def delimCellRender (aligns : List (Bool × Bool)) (widths : List Nat) (cidx : Nat) : List Char :=
  let lr := aligns.getD cidx (false, false)
  let core := List.replicate (widths.getD cidx 0) '-'
  let core := if lr.1 then ':' :: core.tail else core
  if lr.2 then core.dropLast ++ [':'] else core

/-- `align_table`. -/
def align_table (t : Table) : List (List Char) :=
  let ncols := ncolsOf t
  let aligns := alignsOf t
  let widths := widthsOf t
  (paddedRows t).enum.map (fun p =>
    if p.1 = 1 then renderCells ((List.range ncols).map (delimCellRender aligns widths))
    else renderCells ((List.range ncols).map
      (fun cidx => ljust (p.2.getD cidx []) (widths.getD cidx 0))))

/-- Python slicing `l[a:b]`. -/
def pySlice (l : List (List Char)) (a b : Nat) : List (List Char) :=
  (l.take b).drop a

/-- Python slice assignment `l[a:b] = new`. -/
def splice (l : List (List Char)) (a b : Nat) (new : List (List Char)) : List (List Char) :=
  l.take a ++ new ++ l.drop b

/-- One iteration of the `for t in reversed(tables)` loop of
`process_file`: the three guard `continue`s, then the compare-and-splice. -/
def alignStep (st : List (List Char) × Bool) (t : Table) : List (List Char) × Bool :=
  if t.rows.length < 2 then st
  else if maxFold (t.rows.map List.length) < 2 then st
  else if !(is_delimiter_row (st.1.getD (t.start + 1) [])) then st
  else
    let aligned := align_table t
    let stop := (t.end_ + 1).toNat
    if pySlice st.1 t.start stop ≠ aligned then (splice st.1 t.start stop aligned, true) else st

/-- The pure core of `process_file` (the spec's
`alignDocument(lines) -> (newLines, changed)`): find the tables and apply
the reversed splice loop.  With no tables the fold returns
`(lines, false)`, matching the early `return False`. -/
def alignDocument (L : List (List Char)) : List (List Char) × Bool :=
  ((find_tables L).reverse).foldl alignStep (L, false)

/-- `process_file` writes the file back iff the changed flag is set
(`if changed: path.write_text(...)`). -/
def writesBack (L : List (List Char)) : Bool := (alignDocument L).2

/-! ### Spec-side definitions (from the claims' wording, for comparison) -/

/-- Modelled from the claim's words (C3, as frozen): a delimiter cell is
one that, after stripping one optional leading colon and one optional
trailing colon, consists of three or more dashes and nothing else (in
particular no interior whitespace between a colon and the dash run). -/
def specDelimCellStrict (c : List Char) : Bool :=
  let c1 := if c.head? = some ':' then c.tail else c
  let c2 := if c1.getLast? = some ':' then c1.dropLast else c1
  decide (3 ≤ c2.length) && c2.all (fun ch => ch = '-')

/-- The claim's delimiter-row classification (C3, as frozen): at least
two cells and every cell strictly colon-stripped dashes. -/
def specDelimRowStrict (line : List Char) : Bool :=
  let cells := split_row line
  decide (2 ≤ cells.length) && cells.all specDelimCellStrict

/-- The amended delimiter-cell rule: surrounding whitespace is also
stripped after the optional colons are removed. -/
def specDelimCellAmended (c : List Char) : Bool :=
  let c1 := if c.head? = some ':' then c.tail else c
  let c2 := if c1.getLast? = some ':' then c1.dropLast else c1
  let c3 := trim c2
  decide (3 ≤ c3.length) && c3.all (fun ch => ch = '-')

/-- "No valid header-plus-delimiter pair": no line index carries a pipe
and is followed by a delimiter row. -/
def noPairB (L : List (List Char)) : Bool :=
  (List.range L.length).all (fun i =>
    !(decide (i+1 < L.length) && (L.getD i []).contains '|'
      && is_delimiter_row (L.getD (i+1) [])))

/-- Acceptance by the rewriter's guards, stated against the original
document lines. -/
def acceptedB (L : List (List Char)) (t : Table) : Bool :=
  decide (2 ≤ t.rows.length) && decide (2 ≤ maxFold (t.rows.map List.length))
    && is_delimiter_row (L.getD (t.start + 1) [])

/-- Number of occurrences of the two-character escape `\|`. -/
def countEsc : List Char → Nat
  | a :: b :: r => (if a = '\\' ∧ b = '|' then 1 else 0) + countEsc (b :: r)
  | _ => 0

/-- Total `\|`-count over a list of cells. -/
def sumEsc (cells : List (List Char)) : Nat := (cells.map countEsc).sum

/-- Lengths of the maximal backtick runs of a line (fuelled scan; each
step consumes at least one character). -/
def runLensGo : Nat → List Char → List Nat
  | _, [] => []
  | 0, _ :: _ => []
  | fuel+1, c :: r =>
    if c = tickChar then
      let p := tickRun r
      (p.1 + 1) :: runLensGo fuel p.2
    else runLensGo fuel r

/-- `noRunB k l`: no maximal backtick run of `l` has length exactly `k`
(so a span opened by a `k`-run is never closed inside `l`). -/
def noRunB (k : Nat) (l : List Char) : Bool :=
  !(runLensGo l.length l).contains k

/-- Structural facts guaranteed for every table emitted by
`find_tables` on document `L`: the `end` index is `start + len - 1`, the
span fits in the document, the rows are the tokenizations of the
spanned lines, a table is either degenerate (no rows) or passes all of
the rewriter's guards, and a table whose header line starts a fence
marker is degenerate. -/
def TableInv (L : List (List Char)) (t : Table) : Prop :=
  t.end_ = (t.start : Int) + t.rows.length - 1
  ∧ t.start + t.rows.length ≤ L.length
  ∧ t.rows = (List.range' t.start t.rows.length).map (fun k => split_row (L.getD k []))
  ∧ (t.rows.length = 0 ∨ (2 ≤ t.rows.length ∧ acceptedB L t = true))
  ∧ (startsFenceOf (L.getD t.start []) = true → t.rows = [])

/-- The tables of a scan are listed in document order with disjoint
spans, all of them at or after line `lo`. -/
def TablesOrdered (lo : Nat) (ts : List Table) : Prop :=
  (∀ t ∈ ts, lo ≤ t.start)
  ∧ ts.Pairwise (fun a b => a.start + a.rows.length ≤ b.start)

/-- Whether a table's rendered lines differ from its original lines in
the document (the comparison made by `process_file` before splicing). -/
def tableDiffB (L : List (List Char)) (t : Table) : Bool :=
  decide (pySlice L t.start (t.start + t.rows.length) ≠ align_table t)

/-- `k` lies in the line span of table `t`. -/
def inSpan (t : Table) (k : Nat) : Prop :=
  t.start ≤ k ∧ k < t.start + t.rows.length

/-- Characters of a string literal (for concrete example documents). -/
def strChars (s : String) : List Char := s.data

/-- Example document for idempotence: a table whose first column is
left-aligned and only three characters wide. -/
def exD1 : List (List Char) :=
  [strChars "|h|k999|", strChars "|:---|---|", strChars "|---|---|"]

/-- The three-line document of the C2 scenario, as frozen. -/
def exD2 : List (List Char) :=
  [strChars "|a|bb|", strChars "|-|-|", strChars "|1|22|"]

/-- The C2 scenario with a well-formed (three-dash) delimiter row. -/
def exD2v : List (List Char) :=
  [strChars "|a|bb|", strChars "|---|---|", strChars "|1|22|"]

/-- A document whose second line both closes a code fence and precedes
a delimiter row. -/
def exD4 : List (List Char) :=
  [strChars "```", strChars "``` x|y", strChars "|---|---|"]

/-- A table with a ragged one-cell body row. -/
def exD5 : List (List Char) :=
  [strChars "|a|b|", strChars "|---|---|", strChars "|c|"]

/-- A table whose header row ends in an escaped pipe. -/
def exD6 : List (List Char) :=
  [strChars "|h|a\\|", strChars "|---|---|"]

/-- A concrete table whose header cell holds an escaped pipe. -/
def exT6 : Table :=
  ⟨0, 1, [[strChars "a\\|b", strChars "c"], [strChars "---", strChars "---"]]⟩

/-- A concrete two-column table with a wide first column. -/
def exT8 : Table :=
  ⟨0, 1, [[strChars "aaaa", strChars "b"], [strChars "---", strChars "---"]]⟩

/-- The table detected in `exD2v`. -/
def exT10 : Table :=
  ⟨0, 2, [[strChars "a", strChars "bb"], [strChars "---", strChars "---"],
    [strChars "1", strChars "22"]]⟩


/-! ### Basic facts about the Python string helpers -/

theorem lstrip_idem (s : List Char) : lstrip (lstrip s) = lstrip s := by
  induction s with
  | nil => rfl
  | cons a l ih =>
    by_cases h : pySpace a
    · simpa [lstrip, List.dropWhile_cons, h] using ih
    · simp [lstrip, List.dropWhile_cons, h]

theorem rstrip_eq_reverse_lstrip (s : List Char) : rstrip s = (lstrip s.reverse).reverse := rfl

theorem rstrip_idem (s : List Char) : rstrip (rstrip s) = rstrip s := by
  simp only [rstrip_eq_reverse_lstrip, List.reverse_reverse, lstrip_idem]

theorem rstrip_cons (a : Char) (l : List Char) :
    rstrip (a :: l) =
      if rstrip l = [] then (if pySpace a then [] else [a]) else a :: rstrip l := by
  have h1 : rstrip (a :: l) = (List.dropWhile pySpace (l.reverse ++ [a])).reverse := by
    simp [rstrip]
  rw [h1, List.dropWhile_append]
  by_cases h : (List.dropWhile pySpace l.reverse).isEmpty
  · have h' : rstrip l = [] := by
      rw [List.isEmpty_iff] at h; simp [rstrip, h]
    by_cases ha : pySpace a <;> simp [h, h', List.dropWhile_cons, ha]
  · have h' : ¬ rstrip l = [] := by
      rw [List.isEmpty_iff] at h
      simp only [rstrip, ne_eq, List.reverse_eq_nil_iff]
      exact h
    rw [if_neg (by simpa using h), if_neg h']
    simp [rstrip]

theorem rstrip_nonspace_head (a : Char) (l : List Char) (ha : ¬ pySpace a) :
    ∃ r, rstrip (a :: l) = a :: r := by
  rw [rstrip_cons]
  by_cases h : rstrip l = [] <;> simp [h, ha]

theorem lstrip_cons_of_nonspace (a : Char) (l : List Char) (ha : ¬ pySpace a) :
    lstrip (a :: l) = a :: l := by
  simp [lstrip, List.dropWhile_cons, ha]

theorem lstrip_head_nonspace (s : List Char) (a : Char) (r : List Char)
    (h : lstrip s = a :: r) : ¬ pySpace a := by
  intro ha
  induction s with
  | nil => simp [lstrip] at h
  | cons b l ih =>
    by_cases hb : pySpace b
    · exact ih (by simpa [lstrip, List.dropWhile_cons, hb] using h)
    · rw [lstrip_cons_of_nonspace b l hb] at h
      cases h; exact hb ha

theorem lstrip_rstrip_of_lstripped (y : List Char) (h : lstrip y = y) :
    lstrip (rstrip y) = rstrip y := by
  cases y with
  | nil => rfl
  | cons a l =>
    have ha : ¬ pySpace a := lstrip_head_nonspace (a :: l) a l h
    obtain ⟨r, hr⟩ := rstrip_nonspace_head a l ha
    rw [hr, lstrip_cons_of_nonspace a r ha]

theorem trim_trim (s : List Char) : trim (trim s) = trim s := by
  unfold trim
  rw [lstrip_rstrip_of_lstripped (lstrip s) (lstrip_idem s), rstrip_idem]

/-- A non-space head survives `trim`. -/
theorem trim_cons_of_nonspace (a : Char) (l : List Char) (ha : ¬ pySpace a) :
    ∃ r, trim (a :: l) = a :: r := by
  unfold trim
  rw [lstrip_cons_of_nonspace a l ha]
  exact rstrip_nonspace_head a l ha

/-- Non-space members survive `lstrip`. -/
theorem mem_lstrip_of_nonspace {x : Char} {l : List Char} (hx : ¬ pySpace x)
    (h : x ∈ l) : x ∈ lstrip l := by
  induction l with
  | nil => cases h
  | cons a r ih =>
    by_cases ha : pySpace a
    · have : x ∈ r := by
        rcases List.mem_cons.1 h with h' | h'
        · exact absurd (h' ▸ ha) hx
        · exact h'
      simpa [lstrip, List.dropWhile_cons, ha] using ih this
    · simpa [lstrip_cons_of_nonspace a r ha] using h

/-- Non-space members survive `rstrip`. -/
theorem mem_rstrip_of_nonspace {x : Char} {l : List Char} (hx : ¬ pySpace x)
    (h : x ∈ l) : x ∈ rstrip l := by
  rw [rstrip_eq_reverse_lstrip, List.mem_reverse]
  exact mem_lstrip_of_nonspace hx (by simpa using h)

/-- Non-space members survive `trim`. -/
theorem mem_trim_of_nonspace {x : Char} {l : List Char} (hx : ¬ pySpace x)
    (h : x ∈ l) : x ∈ trim l :=
  mem_rstrip_of_nonspace hx (mem_lstrip_of_nonspace hx h)

/-- Members of `trim l` are members of `l`. -/
theorem mem_of_mem_trim {x : Char} {l : List Char} (h : x ∈ trim l) : x ∈ l := by
  unfold trim rstrip at h
  rw [List.mem_reverse] at h
  have h1 := (List.dropWhile_sublist _).mem h
  rw [List.mem_reverse] at h1
  exact (List.dropWhile_sublist _).mem h1

/-! ### Unfolding equations for the scanners -/

theorem splitRowGo_nil (fuel : Nat) (buf : List Char) (cells : List (List Char))
    (inc : Bool) (k : Option Nat) :
    splitRowGo fuel [] buf cells inc k = cells ++ [trim buf] := by
  cases fuel <;> rfl

theorem splitRowGo_zero (rest buf : List Char) (cells : List (List Char))
    (inc : Bool) (k : Option Nat) :
    splitRowGo 0 rest buf cells inc k = cells ++ [trim buf] := by
  cases rest <;> rfl

theorem splitRowGo_cons (fuel : Nat) (c : Char) (rest buf : List Char)
    (cells : List (List Char)) (inc : Bool) (k : Option Nat) :
    splitRowGo (fuel+1) (c :: rest) buf cells inc k =
      if c = '\\' ∧ rest.head? = some '|' then
        splitRowGo fuel rest.tail (buf ++ ['\\', '|']) cells inc k
      else if c = tickChar then
        (if inc = false then
          splitRowGo fuel (tickRun rest).2
            (buf ++ List.replicate ((tickRun rest).1 + 1) tickChar) cells true
            (some ((tickRun rest).1 + 1))
        else if k = some ((tickRun rest).1 + 1) then
          splitRowGo fuel (tickRun rest).2
            (buf ++ List.replicate ((tickRun rest).1 + 1) tickChar) cells false none
        else
          splitRowGo fuel (tickRun rest).2
            (buf ++ List.replicate ((tickRun rest).1 + 1) tickChar) cells inc k)
      else if c = '|' ∧ inc = false then
        splitRowGo fuel rest [] (cells ++ [trim buf]) inc k
      else
        splitRowGo fuel rest (buf ++ [c]) cells inc k := rfl

theorem tickRun_decomp (r : List Char) :
    r = List.replicate (tickRun r).1 tickChar ++ (tickRun r).2 := by
  induction r with
  | nil => rfl
  | cons c l ih =>
    by_cases h : c = tickChar
    · simp only [tickRun, if_pos h]
      calc c :: l = c :: (List.replicate (tickRun l).1 tickChar ++ (tickRun l).2) := by rw [← ih]
        _ = _ := by subst h; simp [List.replicate_succ]
    · simp [tickRun, h]

theorem tickRun_length_le (r : List Char) : (tickRun r).2.length ≤ r.length := by
  induction r with
  | nil => simp [tickRun]
  | cons c l ih =>
    by_cases h : c = tickChar
    · simp only [tickRun, if_pos h]
      simpa using Nat.le_succ_of_le ih
    · simp [tickRun, h]

theorem tickRun_rest_head (r : List Char) (c : Char) (r' : List Char)
    (h : (tickRun r).2 = c :: r') : ¬ c = tickChar := by
  induction r with
  | nil => simp [tickRun] at h
  | cons a l ih =>
    by_cases ha : a = tickChar
    · simp only [tickRun, if_pos ha] at h
      exact ih h
    · simp only [tickRun, if_neg ha] at h
      cases h; exact ha

/-! ### Counting literal escaped pipes -/

theorem countEsc_nil : countEsc [] = 0 := rfl

theorem countEsc_singleton (c : Char) : countEsc [c] = 0 := rfl

theorem countEsc_cons_cons (a b : Char) (r : List Char) :
    countEsc (a :: b :: r) = (if a = '\\' ∧ b = '|' then 1 else 0) + countEsc (b :: r) := rfl

theorem countEsc_cons_ne (c : Char) (l : List Char) (hc : ¬ c = '\\') :
    countEsc (c :: l) = countEsc l := by
  cases l with
  | nil => rfl
  | cons y l' => simp [countEsc_cons_cons, hc]

theorem countEsc_append (a b : List Char) :
    countEsc (a ++ b) =
      countEsc a + countEsc b
        + (if a.getLast? = some '\\' ∧ b.head? = some '|' then 1 else 0) := by
  induction a with
  | nil => simp [countEsc]
  | cons x a ih =>
    cases a with
    | nil =>
      cases b with
      | nil => simp [countEsc]
      | cons y b' =>
        simp only [List.singleton_append, countEsc_cons_cons, countEsc_singleton,
          List.getLast?_singleton, List.head?_cons, Option.some.injEq]
        omega
    | cons z a' =>
      have h1 : (x :: z :: a') ++ b = x :: ((z :: a') ++ b) := rfl
      rw [h1, show ((z :: a') ++ b) = z :: (a' ++ b) from rfl, countEsc_cons_cons,
        show (z :: (a' ++ b)) = (z :: a') ++ b from rfl, ih, countEsc_cons_cons,
        List.getLast?_cons_cons]
      omega

theorem countEsc_cons_space (c : Char) (l : List Char) (hc : pySpace c) :
    countEsc (c :: l) = countEsc l := by
  refine countEsc_cons_ne c l ?_
  intro h; subst h; revert hc; decide

theorem countEsc_lstrip (l : List Char) : countEsc (lstrip l) = countEsc l := by
  induction l with
  | nil => rfl
  | cons a r ih =>
    by_cases ha : pySpace a
    · rw [show lstrip (a :: r) = lstrip r from by simp [lstrip, List.dropWhile_cons, ha],
        ih, countEsc_cons_space a r ha]
    · rw [lstrip_cons_of_nonspace a r ha]

theorem countEsc_snoc_space (l : List Char) (c : Char) (hc : pySpace c) :
    countEsc (l ++ [c]) = countEsc l := by
  rw [countEsc_append]
  have : ¬ c = '|' := by intro h; subst h; revert hc; decide
  simp [countEsc_singleton, this]

theorem rstrip_append_singleton (l : List Char) (c : Char) :
    rstrip (l ++ [c]) = if pySpace c then rstrip l else l ++ [c] := by
  by_cases h : pySpace c <;>
    simp [rstrip, List.dropWhile_cons, h]

theorem countEsc_rstrip (l : List Char) : countEsc (rstrip l) = countEsc l := by
  induction l using List.reverseRecOn with
  | nil => rfl
  | append_singleton l c ih =>
    rw [rstrip_append_singleton]
    by_cases hc : pySpace c
    · rw [if_pos hc, ih, countEsc_snoc_space l c hc]
    · rw [if_neg hc]

theorem countEsc_trim (l : List Char) : countEsc (trim l) = countEsc l := by
  unfold trim
  rw [countEsc_rstrip, countEsc_lstrip]

theorem sumEsc_nil : sumEsc [] = 0 := rfl

theorem sumEsc_snoc (cells : List (List Char)) (c : List Char) :
    sumEsc (cells ++ [c]) = sumEsc cells + countEsc c := by
  simp [sumEsc]

/-! ### Structural lemmas about the row scanner -/

theorem splitRowGo_esc (fuel : Nat) :
    ∀ (rest buf : List Char) (cells : List (List Char)) (inc : Bool) (k : Option Nat),
    rest.length ≤ fuel →
    (buf.getLast? = some '\\' → rest.head? ≠ some '|') →
    sumEsc (splitRowGo fuel rest buf cells inc k) = sumEsc cells + countEsc (buf ++ rest) := by
  induction fuel with
  | zero =>
    intro rest buf cells inc k hlen _
    have hr : rest = [] := List.eq_nil_of_length_eq_zero (Nat.le_zero.1 hlen)
    subst hr
    rw [splitRowGo_nil, sumEsc_snoc, countEsc_trim, List.append_nil]
  | succ f ih =>
    intro rest buf cells inc k hlen hJ
    cases rest with
    | nil => rw [splitRowGo_nil, sumEsc_snoc, countEsc_trim, List.append_nil]
    | cons c r =>
      rw [splitRowGo_cons]
      by_cases h1 : c = '\\' ∧ r.head? = some '|'
      · rw [if_pos h1]
        obtain ⟨hc, hh⟩ := h1
        cases r with
        | nil => simp at hh
        | cons y r2 =>
          simp only [List.head?_cons, Option.some.injEq] at hh
          subst hc hh
          simp only [List.tail_cons]
          rw [ih r2 (buf ++ ['\\', '|']) cells inc k (by simp at hlen ⊢; omega) ?_]
          · simp [List.append_assoc]
          · intro habs
            rw [show buf ++ ['\\', '|'] = (buf ++ ['\\']) ++ ['|'] from by simp,
              List.getLast?_concat] at habs
            simp at habs
      · rw [if_neg h1]
        by_cases h2 : c = tickChar
        · rw [if_pos h2]
          have hlen2 : (tickRun r).2.length ≤ f := by
            have := tickRun_length_le r
            simp at hlen; omega
          have hJ2 : (buf ++ List.replicate ((tickRun r).1 + 1) tickChar).getLast? = some '\\' →
              (tickRun r).2.head? ≠ some '|' := by
            intro habs
            rw [show buf ++ List.replicate ((tickRun r).1 + 1) tickChar
                = (buf ++ List.replicate (tickRun r).1 tickChar) ++ [tickChar] from by
                  simp [List.replicate_succ' ((tickRun r).1) tickChar],
              List.getLast?_concat] at habs
            have : tickChar = '\\' := by simpa using habs
            exact absurd this (by decide)
          have harr : (buf ++ List.replicate ((tickRun r).1 + 1) tickChar) ++ (tickRun r).2
              = buf ++ (c :: r) := by
            rw [List.append_assoc]
            congr 1
            rw [show (tickRun r).1 + 1 = 1 + (tickRun r).1 from by omega, List.replicate_add,
              List.append_assoc, ← tickRun_decomp]
            simp [List.replicate, h2]
          by_cases h3 : inc = false
          · rw [if_pos h3, ih _ _ _ _ _ hlen2 hJ2, harr]
          · rw [if_neg h3]
            by_cases h4 : k = some ((tickRun r).1 + 1)
            · rw [if_pos h4, ih _ _ _ _ _ hlen2 hJ2, harr]
            · rw [if_neg h4, ih _ _ _ _ _ hlen2 hJ2, harr]
        · rw [if_neg h2]
          by_cases h3 : c = '|' ∧ inc = false
          · rw [if_pos h3]
            rw [ih r [] (cells ++ [trim buf]) inc k (by simp at hlen ⊢; omega) (by simp)]
            rw [sumEsc_snoc, countEsc_trim, List.nil_append]
            have hnb : ¬ buf.getLast? = some '\\' := by
              intro habs
              exact hJ habs (by simp [h3.1])
            rw [countEsc_append buf (c :: r), if_neg (by intro habs; exact hnb habs.1)]
            rw [countEsc_cons_ne c r (by rw [h3.1]; decide)]
            omega
          · rw [if_neg h3]
            rw [ih r (buf ++ [c]) cells inc k (by simp at hlen ⊢; omega) ?_]
            · congr 1
              rw [List.append_assoc]
              rfl
            · intro habs
              rw [List.getLast?_concat] at habs
              have hc : c = '\\' := by simpa using habs
              intro hhd
              exact h1 ⟨hc, hhd⟩

theorem splitRowGo_cells_trimmed (fuel : Nat) :
    ∀ (rest buf : List Char) (cells : List (List Char)) (inc : Bool) (k : Option Nat),
    (∀ c ∈ cells, trim c = c) →
    ∀ c ∈ splitRowGo fuel rest buf cells inc k, trim c = c := by
  induction fuel with
  | zero =>
    intro rest buf cells inc k hc c hm
    rw [splitRowGo_zero] at hm
    rcases List.mem_append.1 hm with h | h
    · exact hc c h
    · rw [List.mem_singleton.1 h]; exact trim_trim buf
  | succ f ih =>
    intro rest buf cells inc k hc c hm
    cases rest with
    | nil =>
      rw [splitRowGo_nil] at hm
      rcases List.mem_append.1 hm with h | h
      · exact hc c h
      · rw [List.mem_singleton.1 h]; exact trim_trim buf
    | cons x r =>
      rw [splitRowGo_cons] at hm
      by_cases h1 : x = '\\' ∧ r.head? = some '|'
      · rw [if_pos h1] at hm; exact ih _ _ _ _ _ hc c hm
      · rw [if_neg h1] at hm
        by_cases h2 : x = tickChar
        · rw [if_pos h2] at hm
          by_cases h3 : inc = false
          · rw [if_pos h3] at hm; exact ih _ _ _ _ _ hc c hm
          · rw [if_neg h3] at hm
            by_cases h4 : k = some ((tickRun r).1 + 1)
            · rw [if_pos h4] at hm; exact ih _ _ _ _ _ hc c hm
            · rw [if_neg h4] at hm; exact ih _ _ _ _ _ hc c hm
        · rw [if_neg h2] at hm
          by_cases h3 : x = '|' ∧ inc = false
          · rw [if_pos h3] at hm
            refine ih _ _ _ _ _ ?_ c hm
            intro c' hc'
            rcases List.mem_append.1 hc' with h | h
            · exact hc c' h
            · rw [List.mem_singleton.1 h]; exact trim_trim buf
          · rw [if_neg h3] at hm; exact ih _ _ _ _ _ hc c hm

/-- Every cell of `split_row` is a fixed point of `trim`. -/
theorem split_row_cells_trimmed (line : List Char) :
    ∀ c ∈ split_row line, trim c = c := by
  intro c hm
  exact splitRowGo_cells_trimmed _ _ _ _ _ _ (by intro c h; cases h) c hm

theorem splitRowGo_first_cell (fuel : Nat) :
    ∀ (rest buf : List Char) (cells : List (List Char)) (inc : Bool) (k : Option Nat),
    ∃ d rest', splitRowGo fuel rest buf cells inc k = cells ++ (trim (buf ++ d) :: rest') := by
  induction fuel with
  | zero =>
    intro rest buf cells inc k
    exact ⟨[], [], by rw [splitRowGo_zero, List.append_nil]⟩
  | succ f ih =>
    intro rest buf cells inc k
    cases rest with
    | nil => exact ⟨[], [], by rw [splitRowGo_nil, List.append_nil]⟩
    | cons x r =>
      rw [splitRowGo_cons]
      by_cases h1 : x = '\\' ∧ r.head? = some '|'
      · rw [if_pos h1]
        obtain ⟨d, rest', h⟩ := ih r.tail (buf ++ ['\\', '|']) cells inc k
        exact ⟨['\\', '|'] ++ d, rest', by rw [h, List.append_assoc]⟩
      · rw [if_neg h1]
        by_cases h2 : x = tickChar
        · rw [if_pos h2]
          by_cases h3 : inc = false
          · rw [if_pos h3]
            obtain ⟨d, rest', h⟩ := ih (tickRun r).2
              (buf ++ List.replicate ((tickRun r).1 + 1) tickChar) cells true
              (some ((tickRun r).1 + 1))
            exact ⟨List.replicate ((tickRun r).1 + 1) tickChar ++ d, rest',
              by rw [h, List.append_assoc]⟩
          · rw [if_neg h3]
            by_cases h4 : k = some ((tickRun r).1 + 1)
            · rw [if_pos h4]
              obtain ⟨d, rest', h⟩ := ih (tickRun r).2
                (buf ++ List.replicate ((tickRun r).1 + 1) tickChar) cells false none
              exact ⟨List.replicate ((tickRun r).1 + 1) tickChar ++ d, rest',
                by rw [h, List.append_assoc]⟩
            · rw [if_neg h4]
              obtain ⟨d, rest', h⟩ := ih (tickRun r).2
                (buf ++ List.replicate ((tickRun r).1 + 1) tickChar) cells inc k
              exact ⟨List.replicate ((tickRun r).1 + 1) tickChar ++ d, rest',
                by rw [h, List.append_assoc]⟩
        · rw [if_neg h2]
          by_cases h3 : x = '|' ∧ inc = false
          · rw [if_pos h3]
            obtain ⟨d, rest', h⟩ := ih r [] (cells ++ [trim buf]) inc k
            refine ⟨[], trim d :: rest', ?_⟩
            rw [h, List.append_assoc, List.append_nil]
            rfl
          · rw [if_neg h3]
            obtain ⟨d, rest', h⟩ := ih r (buf ++ [x]) cells inc k
            exact ⟨[x] ++ d, rest', by rw [h, List.append_assoc]⟩

theorem splitRowGo_length_no_pipe (fuel : Nat) :
    ∀ (rest buf : List Char) (cells : List (List Char)) (inc : Bool) (k : Option Nat),
    '|' ∉ rest →
    (splitRowGo fuel rest buf cells inc k).length = cells.length + 1 := by
  induction fuel with
  | zero =>
    intro rest buf cells inc k _
    rw [splitRowGo_zero]; simp
  | succ f ih =>
    intro rest buf cells inc k hp
    cases rest with
    | nil => rw [splitRowGo_nil]; simp
    | cons x r =>
      have hx : ¬ x = '|' := fun h => hp (h ▸ List.mem_cons_self x r)
      have hr : '|' ∉ r := fun h => hp (List.mem_cons_of_mem x h)
      rw [splitRowGo_cons]
      have h1 : ¬ (x = '\\' ∧ r.head? = some '|') := by
        rintro ⟨-, hh⟩
        cases r with
        | nil => simp at hh
        | cons y r2 =>
          simp only [List.head?_cons, Option.some.injEq] at hh
          exact hr (hh ▸ List.mem_cons_self y r2)
      rw [if_neg h1]
      by_cases h2 : x = tickChar
      · rw [if_pos h2]
        have hpr2 : '|' ∉ (tickRun r).2 := by
          intro hmem
          exact hr (by rw [tickRun_decomp r]; exact List.mem_append_right _ hmem)
        by_cases h3 : inc = false
        · rw [if_pos h3]; exact ih _ _ _ _ _ hpr2
        · rw [if_neg h3]
          by_cases h4 : k = some ((tickRun r).1 + 1)
          · rw [if_pos h4]; exact ih _ _ _ _ _ hpr2
          · rw [if_neg h4]; exact ih _ _ _ _ _ hpr2
      · rw [if_neg h2]
        rw [if_neg (by rintro ⟨h, -⟩; exact hx h)]
        exact ih _ _ _ _ _ hr

/-! ### Escape preservation through tokenizing and rendering -/

/-- The tokenizer preserves every `\|` of the stripped row interior. -/
theorem sumEsc_split_row (line : List Char) :
    sumEsc (split_row line) = countEsc (stripOuterPipes line) := by
  unfold split_row
  rw [splitRowGo_esc _ _ _ _ _ _ (Nat.le_refl _) (by simp)]
  simp [sumEsc_nil]

theorem countEsc_replicate_of_ne (n : Nat) (c : Char) (hc : ¬ c = '\\') :
    countEsc (List.replicate n c) = 0 := by
  induction n with
  | zero => rfl
  | succ m ih => rw [List.replicate_succ, countEsc_cons_ne c _ hc, ih]

/-- Left-justification padding preserves the `\|` count. -/
theorem countEsc_ljust (p : List Char) (w : Nat) : countEsc (ljust p w) = countEsc p := by
  unfold ljust
  rw [countEsc_append, countEsc_replicate_of_ne _ _ (by decide)]
  have : ¬ ((List.replicate (w - p.length) ' ').head? = some '|') := by
    cases h : w - p.length with
    | zero => simp
    | succ m => simp [List.replicate_succ]
  rw [if_neg (by rintro ⟨-, hh⟩; exact this hh)]
  omega

/-- The row renderer preserves the total `\|` count of its parts. -/
theorem countEsc_renderCells (parts : List (List Char)) :
    countEsc (renderCells parts) = sumEsc parts := by
  have hmid : countEsc (List.intercalate (' ' :: '|' :: ' ' :: []) parts) = sumEsc parts := by
    induction parts with
    | nil => simp [List.intercalate, sumEsc, countEsc_nil]
    | cons p ps ih =>
      cases ps with
      | nil => simp [List.intercalate, sumEsc]
      | cons q ps' =>
        rw [show List.intercalate (' ' :: '|' :: ' ' :: []) (p :: q :: ps')
            = p ++ (' ' :: '|' :: ' ' :: []) ++ List.intercalate (' ' :: '|' :: ' ' :: []) (q :: ps')
          from by simp [List.intercalate, List.intersperse]]
        rw [List.append_assoc, countEsc_append]
        rw [if_neg (by rintro ⟨-, hh⟩; simp at hh)]
        rw [show (' ' :: '|' :: ' ' :: []) ++ List.intercalate (' ' :: '|' :: ' ' :: []) (q :: ps')
            = ' ' :: ('|' :: ' ' :: List.intercalate (' ' :: '|' :: ' ' :: []) (q :: ps')) from rfl]
        rw [countEsc_cons_ne _ _ (by decide), countEsc_cons_ne _ _ (by decide),
          countEsc_cons_ne _ _ (by decide), ih]
        simp [sumEsc]
  unfold renderCells
  rw [List.append_assoc, countEsc_append, if_neg (by rintro ⟨hh, -⟩; simp at hh)]
  rw [show countEsc ('|' :: ' ' :: []) = 0 from rfl]
  rw [countEsc_append, if_neg (by rintro ⟨-, hh⟩; simp [List.head?_append] at hh ⊢)]
  rw [show countEsc (' ' :: '|' :: []) = 0 from rfl, hmid]
  omega

theorem foldl_max_eq (l : List Nat) (i : Nat) : l.foldl max i = max i (l.foldl max 0) := by
  induction l generalizing i with
  | nil => simp
  | cons a l ih =>
    rw [List.foldl_cons, List.foldl_cons, ih (max i a), ih (max 0 a)]
    omega

theorem maxFold_cons (a : Nat) (l : List Nat) : maxFold (a :: l) = max a (maxFold l) := by
  unfold maxFold
  rw [List.foldl_cons, foldl_max_eq]
  omega

theorem le_maxFold_of_mem {x : Nat} {l : List Nat} (h : x ∈ l) : x ≤ maxFold l := by
  induction l with
  | nil => cases h
  | cons a l ih =>
    rw [maxFold_cons]
    rcases List.mem_cons.1 h with h' | h'
    · omega
    · have := ih h'; omega

theorem maxFold_le (l : List Nat) (n : Nat) (h : ∀ x ∈ l, x ≤ n) : maxFold l ≤ n := by
  induction l with
  | nil => simp [maxFold]
  | cons a l ih =>
    rw [maxFold_cons]
    have h1 := h a (List.mem_cons_self a l)
    have h2 := ih (fun x hx => h x (List.mem_cons_of_mem a hx))
    omega

/-! ### Backtick runs and fuel irrelevance -/

theorem tickRun_of_head_ne (r : List Char) (h : r.head? ≠ some tickChar) :
    tickRun r = (0, r) := by
  cases r with
  | nil => rfl
  | cons c r' =>
    have : ¬ c = tickChar := by
      intro hc; exact h (by simp [hc])
    simp [tickRun, this]

theorem tickRun_replicate_append (m : Nat) (r : List Char) :
    tickRun (List.replicate m tickChar ++ r)
      = (m + (tickRun r).1, (tickRun r).2) := by
  induction m with
  | zero => simp
  | succ p ih =>
    rw [List.replicate_succ, List.cons_append]
    show (if tickChar = tickChar then
      let q := tickRun (List.replicate p tickChar ++ r); (q.1 + 1, q.2)
      else (0, tickChar :: (List.replicate p tickChar ++ r))) = _
    rw [if_pos rfl, ih]
    show ((p + (tickRun r).1) + 1, (tickRun r).2) = (p + 1 + (tickRun r).1, (tickRun r).2)
    rw [Nat.add_right_comm]

theorem splitRowGo_fuel_irrel (f1 : Nat) :
    ∀ (f2 : Nat) (rest buf : List Char) (cells : List (List Char)) (inc : Bool) (k : Option Nat),
    rest.length ≤ f1 → rest.length ≤ f2 →
    splitRowGo f1 rest buf cells inc k = splitRowGo f2 rest buf cells inc k := by
  induction f1 with
  | zero =>
    intro f2 rest buf cells inc k h1 _
    have : rest = [] := List.eq_nil_of_length_eq_zero (Nat.le_zero.1 h1)
    subst this
    rw [splitRowGo_nil, splitRowGo_nil]
  | succ g1 ih =>
    intro f2 rest buf cells inc k h1 h2
    cases rest with
    | nil => rw [splitRowGo_nil, splitRowGo_nil]
    | cons c r =>
      have hf2 : ∃ g2, f2 = g2 + 1 := by
        cases f2 with
        | zero => simp at h2
        | succ g2 => exact ⟨g2, rfl⟩
      obtain ⟨g2, rfl⟩ := hf2
      rw [splitRowGo_cons, splitRowGo_cons]
      simp only [List.length_cons] at h1 h2
      by_cases hb1 : c = '\\' ∧ r.head? = some '|'
      · rw [if_pos hb1, if_pos hb1]
        refine ih g2 r.tail _ _ _ _ ?_ ?_ <;>
          · have := List.length_tail r
            omega
      · rw [if_neg hb1, if_neg hb1]
        by_cases hb2 : c = tickChar
        · rw [if_pos hb2, if_pos hb2]
          have hlen := tickRun_length_le r
          by_cases hb3 : inc = false
          · rw [if_pos hb3, if_pos hb3]
            exact ih g2 _ _ _ _ _ (by omega) (by omega)
          · rw [if_neg hb3, if_neg hb3]
            by_cases hb4 : k = some ((tickRun r).1 + 1)
            · rw [if_pos hb4, if_pos hb4]
              exact ih g2 _ _ _ _ _ (by omega) (by omega)
            · rw [if_neg hb4, if_neg hb4]
              exact ih g2 _ _ _ _ _ (by omega) (by omega)
        · rw [if_neg hb2, if_neg hb2]
          by_cases hb3 : c = '|' ∧ inc = false
          · rw [if_pos hb3, if_pos hb3]
            exact ih g2 _ _ _ _ _ (by omega) (by omega)
          · rw [if_neg hb3, if_neg hb3]
            exact ih g2 _ _ _ _ _ (by omega) (by omega)

theorem runLensGo_irrel (f1 : Nat) :
    ∀ (f2 : Nat) (l : List Char), l.length ≤ f1 → l.length ≤ f2 →
    runLensGo f1 l = runLensGo f2 l := by
  induction f1 with
  | zero =>
    intro f2 l h1 _
    have : l = [] := List.eq_nil_of_length_eq_zero (Nat.le_zero.1 h1)
    subst this
    cases f2 <;> rfl
  | succ g1 ih =>
    intro f2 l h1 h2
    cases l with
    | nil => cases f2 <;> rfl
    | cons c r =>
      have hf2 : ∃ g2, f2 = g2 + 1 := by
        cases f2 with
        | zero => simp at h2
        | succ g2 => exact ⟨g2, rfl⟩
      obtain ⟨g2, rfl⟩ := hf2
      simp only [List.length_cons] at h1 h2
      by_cases hc : c = tickChar
      · have hlen := tickRun_length_le r
        simp only [runLensGo, if_pos hc]
        rw [ih g2 _ (by omega) (by omega)]
      · simp only [runLensGo, if_neg hc]
        exact ih g2 _ (by omega) (by omega)

theorem noRunB_cons_ne (k : Nat) (c : Char) (r : List Char) (hc : ¬ c = tickChar) :
    noRunB k (c :: r) = noRunB k r := by
  unfold noRunB
  rw [show runLensGo (c :: r).length (c :: r) = runLensGo r.length r from by
    simp only [List.length_cons, runLensGo, if_neg hc]]

theorem noRunB_cons_tick (k : Nat) (r : List Char) (h : noRunB k (tickChar :: r) = true) :
    ¬ (tickRun r).1 + 1 = k ∧ noRunB k (tickRun r).2 = true := by
  unfold noRunB at h ⊢
  rw [show runLensGo (tickChar :: r).length (tickChar :: r)
      = ((tickRun r).1 + 1) :: runLensGo r.length (tickRun r).2 from by
    simp [List.length_cons, runLensGo]] at h
  rw [runLensGo_irrel r.length (tickRun r).2.length (tickRun r).2
    (tickRun_length_le r) (Nat.le_refl _)] at h
  simp only [Bool.not_eq_true', List.contains_cons, Bool.or_eq_false_iff] at h
  constructor
  · intro habs
    have := h.1
    rw [habs] at this
    simp at this
  · simpa using h.2

/-! ### Code-span semantics of the scanner -/

/-- When the scanner's current character is a pipe, it commits a cell
iff it is not inside a code span; inside a span the pipe is literal. -/
theorem splitRowGo_pipe_step (fuel : Nat) (rest buf : List Char)
    (cells : List (List Char)) (inc : Bool) (k : Option Nat) :
    splitRowGo (fuel+1) ('|' :: rest) buf cells inc k =
      if inc = false then splitRowGo fuel rest [] (cells ++ [trim buf]) inc k
      else splitRowGo fuel rest (buf ++ ['|']) cells inc k := by
  rw [splitRowGo_cons]
  rw [if_neg (by rintro ⟨h, -⟩; simp at h)]
  rw [if_neg (by decide)]
  by_cases h : inc = false
  · rw [if_pos ⟨rfl, h⟩, if_pos h]
  · rw [if_neg (by rintro ⟨-, hh⟩; exact h hh), if_neg h]

/-- At a backtick run: outside a span the run length is recorded and the
span opens; inside a span the run closes it iff its length equals the
recorded length, and otherwise is literal content. -/
theorem splitRowGo_tick_step (fuel : Nat) (rest buf : List Char)
    (cells : List (List Char)) (inc : Bool) (k : Option Nat) :
    splitRowGo (fuel+1) (tickChar :: rest) buf cells inc k =
      if inc = false then
        splitRowGo fuel (tickRun rest).2
          (buf ++ List.replicate ((tickRun rest).1 + 1) tickChar) cells true
          (some ((tickRun rest).1 + 1))
      else if k = some ((tickRun rest).1 + 1) then
        splitRowGo fuel (tickRun rest).2
          (buf ++ List.replicate ((tickRun rest).1 + 1) tickChar) cells false none
      else
        splitRowGo fuel (tickRun rest).2
          (buf ++ List.replicate ((tickRun rest).1 + 1) tickChar) cells inc k := by
  rw [splitRowGo_cons]
  rw [if_neg (by rintro ⟨h, -⟩; revert h; decide)]
  rw [if_pos rfl]

/-- An unterminated code span absorbs the entire remaining input into
the current cell: if no maximal backtick run of the rest has the
recorded length, no further cell is committed and the rest is copied
verbatim. -/
theorem splitRowGo_unterminated (fuel : Nat) :
    ∀ (rest buf : List Char) (cells : List (List Char)) (k : Nat),
    rest.length ≤ fuel → noRunB k rest = true →
    splitRowGo fuel rest buf cells true (some k) = cells ++ [trim (buf ++ rest)] := by
  induction fuel with
  | zero =>
    intro rest buf cells k hlen _
    have : rest = [] := List.eq_nil_of_length_eq_zero (Nat.le_zero.1 hlen)
    subst this
    rw [splitRowGo_nil, List.append_nil]
  | succ f ih =>
    intro rest buf cells k hlen hnr
    cases rest with
    | nil => rw [splitRowGo_nil, List.append_nil]
    | cons c r =>
      simp only [List.length_cons] at hlen
      rw [splitRowGo_cons]
      by_cases h1 : c = '\\' ∧ r.head? = some '|'
      · rw [if_pos h1]
        obtain ⟨hc, hh⟩ := h1
        cases r with
        | nil => simp at hh
        | cons y r2 =>
          simp only [List.head?_cons, Option.some.injEq] at hh
          subst hc hh
          simp only [List.tail_cons]
          have hnr2 : noRunB k r2 = true := by
            rw [noRunB_cons_ne _ _ _ (by decide), noRunB_cons_ne _ _ _ (by decide)] at hnr
            exact hnr
          rw [ih r2 _ cells k (by simp at hlen; omega) hnr2]
          simp [List.append_assoc]
      · rw [if_neg h1]
        by_cases h2 : c = tickChar
        · rw [if_pos h2]
          subst h2
          obtain ⟨hne, hnr2⟩ := noRunB_cons_tick k r hnr
          rw [if_neg (by decide)]
          rw [if_neg (by intro habs; exact hne (by simpa using habs.symm))]
          rw [ih (tickRun r).2 _ cells k (by have := tickRun_length_le r; omega) hnr2]
          have harr : (buf ++ List.replicate ((tickRun r).1 + 1) tickChar) ++ (tickRun r).2
              = buf ++ (tickChar :: r) := by
            rw [List.append_assoc]
            congr 1
            rw [show (tickRun r).1 + 1 = 1 + (tickRun r).1 from by omega, List.replicate_add,
              List.append_assoc, ← tickRun_decomp]
            simp [List.replicate]
          rw [harr]
        · rw [if_neg h2]
          rw [if_neg (by rintro ⟨-, hh⟩; simp at hh)]
          have hnr2 : noRunB k r = true := by
            rw [noRunB_cons_ne _ _ _ h2] at hnr; exact hnr
          rw [ih r _ cells k (by omega) hnr2]
          simp [List.append_assoc]

theorem getLast?_tail_ne (c : Char) (l : List Char) (x : Char)
    (h : (c :: l).getLast? ≠ some x) : l.getLast? ≠ some x := by
  cases l with
  | nil => simp
  | cons d l' =>
    rw [← List.getLast?_cons_cons (a := c)]
    exact h

theorem getLast?_cons_of_ne_nil (c : Char) (l : List Char) (h : l ≠ []) :
    (c :: l).getLast? = l.getLast? := by
  rw [show c :: l = [c] ++ l from rfl]
  exact List.getLast?_append_of_ne_nil _ h


/-- Traversing a code span: from an open span of recorded length `k`,
the scanner copies `content` (whose maximal runs never have length `k`
and which does not abut the closing run) and the closing `k`-run
verbatim into the buffer, closes the span, and continues scanning after
it; every pipe inside the span is therefore literal cell content. -/
theorem splitRowGo_span (fuel : Nat) :
    ∀ (content : List Char) (k : Nat) (rest2 buf : List Char) (cells : List (List Char)),
    (content ++ List.replicate k tickChar ++ rest2).length ≤ fuel →
    0 < k →
    noRunB k content = true →
    content.getLast? ≠ some tickChar →
    rest2.head? ≠ some tickChar →
    splitRowGo fuel (content ++ List.replicate k tickChar ++ rest2) buf cells true (some k)
      = splitRowGo rest2.length rest2 (buf ++ content ++ List.replicate k tickChar) cells
          false none := by
  induction fuel with
  | zero =>
    intro content k rest2 buf cells hlen hk _ _ _
    exfalso
    simp [List.length_replicate] at hlen
    omega
  | succ f ih =>
    intro content k rest2 buf cells hlen hk hnr hlast hhd
    cases content with
    | nil =>
      obtain ⟨m, rfl⟩ : ∃ m, k = m + 1 := ⟨k - 1, by omega⟩
      rw [show ([] : List Char) ++ List.replicate (m+1) tickChar ++ rest2
          = tickChar :: (List.replicate m tickChar ++ rest2) from by
        simp [List.replicate_succ]]
      rw [splitRowGo_tick_step]
      rw [if_neg (by simp)]
      rw [tickRun_replicate_append, tickRun_of_head_ne rest2 hhd]
      rw [if_pos (by simp)]
      rw [splitRowGo_fuel_irrel f rest2.length rest2 _ _ _ _ ?_ (Nat.le_refl _)]
      · congr 1
        simp
      · simp [List.length_replicate] at hlen
        omega
    | cons c content' =>
      have hlen' : (content' ++ List.replicate k tickChar ++ rest2).length ≤ f := by
        simp only [List.cons_append, List.length_cons] at hlen
        omega
      rw [show (c :: content') ++ List.replicate k tickChar ++ rest2
          = c :: (content' ++ List.replicate k tickChar ++ rest2) from by simp]
      rw [splitRowGo_cons]
      by_cases h1 : c = '\\' ∧ (content' ++ List.replicate k tickChar ++ rest2).head? = some '|'
      · rw [if_pos h1]
        obtain ⟨hc, hh⟩ := h1
        have hcontent' : ∃ c2, content' = '|' :: c2 := by
          cases content' with
          | nil =>
            exfalso
            obtain ⟨m, rfl⟩ : ∃ m, k = m + 1 := ⟨k - 1, by omega⟩
            rw [show ([] : List Char) ++ List.replicate (m+1) tickChar ++ rest2
                = tickChar :: (List.replicate m tickChar ++ rest2) from by
              simp [List.replicate_succ]] at hh
            simp at hh
            exact absurd hh.symm (by decide)
          | cons d c2 =>
            simp only [List.cons_append, List.head?_cons, Option.some.injEq] at hh
            exact ⟨c2, by rw [hh]⟩
        obtain ⟨c2, rfl⟩ := hcontent'
        subst hc
        simp only [List.cons_append, List.tail_cons]
        have hih := ih c2 k rest2 (buf ++ ['\\', '|']) cells ?_ hk ?_ ?_ hhd
        · rw [hih]
          congr 2
          simp [List.append_assoc]
        · simp only [List.length_append, List.length_cons] at hlen'
          simp only [List.length_append]
          omega
        · rw [noRunB_cons_ne _ _ _ (by decide), noRunB_cons_ne _ _ _ (by decide)] at hnr
          exact hnr
        · exact getLast?_tail_ne _ _ _ (getLast?_tail_ne _ _ _ hlast)
      · rw [if_neg h1]
        by_cases h2 : c = tickChar
        · subst h2
          rw [if_pos rfl]
          have hc2 : (tickRun content').2 ≠ [] := by
            intro habs
            have hdec := tickRun_decomp content'
            rw [habs, List.append_nil] at hdec
            apply hlast
            rw [hdec]
            rw [show tickChar :: List.replicate (tickRun content').1 tickChar
                = List.replicate ((tickRun content').1 + 1) tickChar from by
              simp [List.replicate]]
            rw [List.replicate_succ' _ _, List.getLast?_append_of_ne_nil _ (by simp)]
            rfl
          obtain ⟨hd2, tl2, hc2e⟩ := List.exists_cons_of_ne_nil hc2
          have hcontent'ne : content' ≠ [] := by
            intro habs
            rw [habs] at hc2
            exact hc2 rfl
          have hrun : tickRun (content' ++ List.replicate k tickChar ++ rest2)
              = ((tickRun content').1,
                 (tickRun content').2 ++ List.replicate k tickChar ++ rest2) := by
            conv_lhs => rw [show content' = List.replicate (tickRun content').1 tickChar
              ++ (tickRun content').2 from tickRun_decomp content']
            rw [List.append_assoc (List.replicate (tickRun content').1 tickChar),
              List.append_assoc (List.replicate (tickRun content').1 tickChar),
              tickRun_replicate_append,
              tickRun_of_head_ne ((tickRun content').2 ++ List.replicate k tickChar ++ rest2)
                (by
                  rw [hc2e]
                  simp only [List.cons_append, List.head?_cons]
                  intro habs
                  exact tickRun_rest_head content' hd2 tl2 hc2e (by simpa using habs))]
            rfl
          have hrun1 : (tickRun (content' ++ List.replicate k tickChar ++ rest2)).1
              = (tickRun content').1 := by rw [hrun]
          have hrun2 : (tickRun (content' ++ List.replicate k tickChar ++ rest2)).2
              = (tickRun content').2 ++ List.replicate k tickChar ++ rest2 := by rw [hrun]
          rw [if_neg (by simp)]
          rw [hrun1, hrun2]
          obtain ⟨hne, hnr2⟩ := noRunB_cons_tick k content' hnr
          rw [if_neg (by intro habs; exact hne (by simpa using habs.symm))]
          have hlast2 : (tickRun content').2.getLast? ≠ some tickChar := by
            have e1 : content'.getLast? = (tickRun content').2.getLast? := by
              conv_lhs => rw [tickRun_decomp content']
              exact List.getLast?_append_of_ne_nil _ hc2
            have e2 := getLast?_cons_of_ne_nil tickChar content' hcontent'ne
            intro habs
            exact hlast (by rw [e2, e1]; exact habs)
          have hih := ih ((tickRun content').2) k rest2
            (buf ++ List.replicate ((tickRun content').1 + 1) tickChar) cells ?_ hk hnr2
            hlast2 hhd
          · rw [hih]
            congr 2
            conv_rhs => rw [show tickChar :: content'
              = List.replicate ((tickRun content').1 + 1) tickChar ++ (tickRun content').2 from by
                rw [show (tickRun content').1 + 1 = 1 + (tickRun content').1 from by omega,
                  List.replicate_add, List.append_assoc, ← tickRun_decomp]
                simp [List.replicate]]
            simp [List.append_assoc]
          · have hlen2 := tickRun_length_le content'
            simp only [List.length_append] at hlen' ⊢
            omega
        · rw [if_neg h2]
          rw [if_neg (by rintro ⟨-, hh⟩; simp at hh)]
          have hih := ih content' k rest2 (buf ++ [c]) cells hlen' hk ?_ ?_ hhd
          · rw [hih]
            congr 2
            simp [List.append_assoc]
          · rw [noRunB_cons_ne _ _ _ h2] at hnr
            exact hnr
          · exact getLast?_tail_ne _ _ _ hlast

/-! ### Cells appear verbatim inside rendered rows -/

theorem intercalate_split (sep : List Char) (parts : List (List Char)) (p : List Char)
    (h : p ∈ parts) : ∃ u v, List.intercalate sep parts = u ++ p ++ v := by
  induction parts with
  | nil => cases h
  | cons a parts' ih =>
    rcases List.mem_cons.1 h with h' | h'
    · subst h'
      cases parts' with
      | nil => exact ⟨[], [], by simp [List.intercalate]⟩
      | cons q ps =>
        refine ⟨[], sep ++ List.intercalate sep (q :: ps), ?_⟩
        rw [show List.intercalate sep (p :: q :: ps)
            = p ++ sep ++ List.intercalate sep (q :: ps) from by
          simp [List.intercalate, List.intersperse]]
        simp [List.append_assoc]
    · obtain ⟨u, v, huv⟩ := ih h'
      cases parts' with
      | nil => cases h'
      | cons q ps =>
        refine ⟨a ++ sep ++ u, v, ?_⟩
        rw [show List.intercalate sep (a :: q :: ps)
            = a ++ sep ++ List.intercalate sep (q :: ps) from by
          simp [List.intercalate, List.intersperse]]
        rw [huv]
        simp [List.append_assoc]

/-- Every part appears as a contiguous byte run of the rendered row. -/
theorem renderCells_split (parts : List (List Char)) (p : List Char) (h : p ∈ parts) :
    ∃ u v, renderCells parts = u ++ p ++ v := by
  obtain ⟨u, v, huv⟩ := intercalate_split (' ' :: '|' :: ' ' :: []) parts p h
  refine ⟨('|' :: ' ' :: []) ++ u, v ++ (' ' :: '|' :: []), ?_⟩
  unfold renderCells
  rw [huv]
  simp [List.append_assoc]

/-! ### The delimiter-cell predicate, compared with the spec's wording -/

theorem all_congr_of_mem {α} (f g : α → Bool) (l : List α)
    (h : ∀ x ∈ l, f x = g x) : l.all f = l.all g := by
  induction l with
  | nil => rfl
  | cons a l ih =>
    simp only [List.all_cons]
    rw [h a (List.mem_cons_self a l), ih (fun x hx => h x (List.mem_cons_of_mem a hx))]

theorem mem_stripOuterPipes {x : Char} {line : List Char}
    (h : x ∈ stripOuterPipes line) : x ∈ line := by
  simp only [stripOuterPipes] at h
  apply mem_of_mem_trim (l := line)
  by_cases h1 : (trim line).head? = some '|'
  · rw [if_pos h1] at h
    by_cases h2 : (trim line).tail.getLast? = some '|'
    · rw [if_pos h2] at h
      exact (List.tail_sublist _).mem ((List.dropLast_sublist _).mem h)
    · rw [if_neg h2] at h
      exact (List.tail_sublist _).mem h
  · rw [if_neg h1] at h
    by_cases h2 : (trim line).getLast? = some '|'
    · rw [if_pos h2] at h
      exact (List.dropLast_sublist _).mem h
    · rw [if_neg h2] at h
      exact h

theorem delim_cell_amended_eq (c : List Char) (hc : trim c = c) :
    is_delimiter_cell c = specDelimCellAmended c := by
  cases c with
  | nil => rfl
  | cons a l =>
    simp only [is_delimiter_cell, specDelimCellAmended, List.isEmpty_cons, hc]
    rw [if_neg (by simp)]
    have hcore :
        (if (a :: l).head? = some ':' ∧ (a :: l).getLast? = some ':' then (a :: l).tail.dropLast
         else if (a :: l).head? = some ':' then (a :: l).tail
         else if (a :: l).getLast? = some ':' then (a :: l).dropLast else a :: l)
        = (if (if (a :: l).head? = some ':' then (a :: l).tail else a :: l).getLast? = some ':' then
             (if (a :: l).head? = some ':' then (a :: l).tail else a :: l).dropLast
           else if (a :: l).head? = some ':' then (a :: l).tail else a :: l) := by
      by_cases hl : (a :: l).head? = some ':'
      · simp only [if_pos hl, List.tail_cons]
        cases l with
        | nil =>
          rw [if_neg (show ¬ (([] : List Char).getLast? = some ':') from by simp)]
          simp
        | cons b l' =>
          have hlast := getLast?_cons_of_ne_nil a (b :: l') (by simp)
          by_cases hr : (a :: b :: l').getLast? = some ':'
          · rw [if_pos ⟨hl, hr⟩, if_pos (by rw [← hlast]; exact hr)]
          · rw [if_neg (by rintro ⟨-, h⟩; exact hr h), if_neg (by rw [← hlast]; exact hr)]
      · simp only [if_neg hl]
        rw [if_neg (by rintro ⟨h, -⟩; exact hl h)]
    rw [hcore]

theorem split_row_length_of_no_pipe (line : List Char) (h : '|' ∉ line) :
    (split_row line).length = 1 := by
  simp only [split_row]
  rw [splitRowGo_length_no_pipe _ _ _ _ _ _ (fun hm => h (mem_stripOuterPipes hm))]
  rfl

/-- `is_delimiter_row`, restated exactly as the amended claim: at least
two tokenized cells, and every cell is dash-only after stripping one
optional leading colon, one optional trailing colon, and surrounding
whitespace. -/
theorem is_delimiter_row_amended (line : List Char) :
    is_delimiter_row line
      = (decide (2 ≤ (split_row line).length) && (split_row line).all specDelimCellAmended) := by
  simp only [is_delimiter_row]
  by_cases hp : line.contains '|'
  · rw [if_neg (by simpa using hp)]
    congr 1
    exact all_congr_of_mem _ _ _
      (fun c hcm => delim_cell_amended_eq c (split_row_cells_trimmed line c hcm))
  · rw [if_pos (by simpa using hp)]
    have hlen : (split_row line).length = 1 := by
      refine split_row_length_of_no_pipe line ?_
      intro hm
      exact hp (by simpa using hm)
    simp [hlen]

/-! ### A delimiter row never begins a code fence -/

theorem rstrip_cons_of_ne (a : Char) (l : List Char) (h : rstrip l ≠ []) :
    rstrip (a :: l) = a :: rstrip l := by
  rw [rstrip_cons, if_neg h]

theorem trim_nonempty_of_pipe (l : List Char) (hp : l.contains '|' = true) :
    (trim l).isEmpty = false := by
  have hm : '|' ∈ l := by simpa using hp
  have : '|' ∈ trim l := mem_trim_of_nonspace (by decide) hm
  cases htl : trim l with
  | nil => rw [htl] at this; cases this
  | cons a r => simp

theorem absorbable_of_pipe_not_fence (l : List Char) (hp : l.contains '|' = true)
    (hf : startsFenceOf l = false) : absorbable l = true := by
  unfold absorbable
  rw [trim_nonempty_of_pipe l hp, hp, hf]
  rfl

theorem lead3_spec (c : Char) (l : List Char) (h : lead3 c l = true) :
    ∃ t, l = c :: c :: c :: t := by
  match l, h with
  | a :: b :: d :: t, h =>
    simp only [lead3, Bool.and_eq_true, decide_eq_true_eq] at h
    obtain ⟨⟨h1, h2⟩, h3⟩ := h
    exact ⟨t, by rw [h1, h2, h3]⟩

theorem split_row_head_marker (line : List Char) (mk : Char) (s' : List Char)
    (hnb : ¬ pySpace mk) (hne : ¬ mk = '\\') (hnp : ¬ mk = '|')
    (hs : stripOuterPipes line = mk :: s') :
    ∃ γ rest', split_row line = (mk :: γ) :: rest' := by
  simp only [split_row, hs]
  by_cases htk : mk = tickChar
  · subst htk
    rw [show (tickChar :: s').length = s'.length + 1 from rfl, splitRowGo_tick_step,
      if_pos rfl]
    obtain ⟨d, rest', hfc⟩ := splitRowGo_first_cell s'.length (tickRun s').2
      ([] ++ List.replicate ((tickRun s').1 + 1) tickChar) [] true (some ((tickRun s').1 + 1))
    rw [hfc]
    have : trim (([] ++ List.replicate ((tickRun s').1 + 1) tickChar) ++ d)
        = tickChar :: (rstrip (List.replicate (tickRun s').1 tickChar ++ d)) := by
      rw [List.nil_append, show List.replicate ((tickRun s').1 + 1) tickChar ++ d
          = tickChar :: (List.replicate (tickRun s').1 tickChar ++ d) from by
        simp [List.replicate_succ]]
      unfold trim
      rw [lstrip_cons_of_nonspace _ _ hnb]
      rw [rstrip_cons]
      by_cases hz : rstrip (List.replicate (tickRun s').1 tickChar ++ d) = []
      · rw [if_pos hz, if_neg hnb, hz]
      · rw [if_neg hz]
    rw [this]
    exact ⟨_, _, rfl⟩
  · rw [show (mk :: s').length = s'.length + 1 from rfl, splitRowGo_cons,
      if_neg (by rintro ⟨h, -⟩; exact hne h), if_neg htk,
      if_neg (by rintro ⟨h, -⟩; exact hnp h)]
    obtain ⟨d, rest', hfc⟩ := splitRowGo_first_cell s'.length s' ([] ++ [mk]) [] false none
    simp only [List.nil_append, List.singleton_append] at hfc
    obtain ⟨r, hr⟩ := trim_cons_of_nonspace mk d hnb
    simp only [List.nil_append]
    rw [hfc, hr]
    exact ⟨r, rest', rfl⟩

theorem is_delimiter_cell_head_false (x : Char) (γ : List Char)
    (hx1 : ¬ pySpace x) (hx2 : ¬ x = ':') (hx3 : ¬ x = '-') :
    is_delimiter_cell (x :: γ) = false := by
  simp only [is_delimiter_cell, List.isEmpty_cons]
  rw [if_neg (by simp)]
  obtain ⟨r, hr⟩ := trim_cons_of_nonspace x γ hx1
  rw [hr]
  have hleft : ¬ ((x :: r).head? = some ':') := by
    simp only [List.head?_cons, Option.some.injEq]
    exact hx2
  rw [if_neg (by rintro ⟨h, -⟩; exact hleft h), if_neg hleft]
  have hcore : ∃ r2, (if (x :: r).getLast? = some ':' then (x :: r).dropLast else (x :: r))
      = x :: r2 := by
    by_cases hright : (x :: r).getLast? = some ':'
    · rw [if_pos hright]
      cases r with
      | nil =>
        exfalso
        simp only [List.getLast?_singleton, Option.some.injEq] at hright
        exact hx2 hright
      | cons b r' =>
        exact ⟨(b :: r').dropLast, by simp⟩
    · rw [if_neg hright]
      exact ⟨r, rfl⟩
  obtain ⟨r2, hr2⟩ := hcore
  rw [hr2]
  obtain ⟨r3, hr3⟩ := trim_cons_of_nonspace x r2 hx1
  rw [hr3]
  simp only [List.all_cons, Bool.and_eq_false_iff]
  right; left
  simpa using hx3

theorem is_delimiter_row_not_fence (l : List Char) (hd : is_delimiter_row l = true) :
    startsFenceOf l = false := by
  by_contra hf
  have hf' : startsFenceOf l = true := by
    cases h : startsFenceOf l
    · exact absurd h hf
    · rfl
  -- extract the marker character
  have hmk : ∃ mk, (¬ pySpace mk) ∧ (¬ mk = '\\') ∧ (¬ mk = '|') ∧ (¬ mk = ':')
      ∧ (¬ mk = '-') ∧ ∃ t, lstrip l = mk :: mk :: mk :: t := by
    unfold startsFenceOf fenceMarkerOf at hf'
    by_cases h1 : lead3 tickChar (lstrip l) = true
    · obtain ⟨t, ht⟩ := lead3_spec _ _ h1
      exact ⟨tickChar, by decide, by decide, by decide, by decide, by decide, t, ht⟩
    · by_cases h2 : lead3 '~' (lstrip l) = true
      · obtain ⟨t, ht⟩ := lead3_spec _ _ h2
        exact ⟨'~', by decide, by decide, by decide, by decide, by decide, t, ht⟩
      · rw [if_neg (by simpa using h1), if_neg (by simpa using h2)] at hf'
        simp at hf'
  obtain ⟨mk, hnb, hne, hnp, hnc, hnd, t, ht⟩ := hmk
  -- the stripped row starts with (at least) three marker characters
  have htrim : ∃ r, trim l = mk :: mk :: mk :: r := by
    unfold trim
    rw [ht]
    obtain ⟨r3, hr3⟩ := rstrip_nonspace_head mk t hnb
    have h3 : rstrip (mk :: t) ≠ [] := by rw [hr3]; simp
    have h4 : rstrip (mk :: mk :: t) ≠ [] := by
      rw [rstrip_cons_of_ne mk (mk :: t) h3]; simp
    rw [rstrip_cons_of_ne mk (mk :: mk :: t) h4, rstrip_cons_of_ne mk (mk :: t) h3, hr3]
    exact ⟨r3, rfl⟩
  obtain ⟨r, hr⟩ := htrim
  -- hence the tokenizer's input starts with the marker
  have hs : ∃ s', stripOuterPipes l = mk :: s' := by
    simp only [stripOuterPipes, hr, List.head?_cons, Option.some.injEq]
    rw [if_neg hnp]
    by_cases hlastp : (mk :: mk :: mk :: r).getLast? = some '|'
    · rw [if_pos hlastp]
      exact ⟨(mk :: mk :: r).dropLast, rfl⟩
    · rw [if_neg hlastp]
      exact ⟨mk :: mk :: r, rfl⟩
  obtain ⟨s', hs⟩ := hs
  obtain ⟨γ, rest', hsr⟩ := split_row_head_marker l mk s' hnb hne hnp hs
  have hmem : (mk :: γ) ∈ split_row l := by
    rw [hsr]; exact List.mem_cons_self _ _
  -- every cell of a delimiter row passes the cell check, but this one fails
  simp only [is_delimiter_row] at hd
  by_cases hp : l.contains '|'
  · rw [if_neg (by simpa using hp)] at hd
    rw [Bool.and_eq_true] at hd
    have hcell := List.all_eq_true.1 hd.2 (mk :: γ) hmem
    rw [is_delimiter_cell_head_false mk γ hnb hnc hnd] at hcell
    cases hcell
  · rw [if_pos (by simpa using hp)] at hd
    cases hd

/-! ### Facts about the table renderer -/

theorem getD_range_map {α} (r : List α) (d : α) :
    (List.range r.length).map (fun i => r.getD i d) = r := by
  induction r with
  | nil => rfl
  | cons a l ih =>
    rw [show (a :: l).length = l.length + 1 from rfl, List.range_succ_eq_map]
    simp only [List.map_cons, List.map_map]
    rw [show ((fun i => (a :: l).getD i d) ∘ (· + 1)) = (fun i => l.getD i d) from by
      funext i; simp]
    rw [ih]
    rfl

theorem align_table_length (t : Table) : (align_table t).length = t.rows.length := by
  simp [align_table, paddedRows]

theorem rows_length_le_ncols (t : Table) (r : List (List Char)) (h : r ∈ t.rows) :
    r.length ≤ ncolsOf t :=
  le_maxFold_of_mem (List.mem_map_of_mem List.length h)

theorem paddedRows_length (t : Table) (pr : List (List Char)) (h : pr ∈ paddedRows t) :
    pr.length = ncolsOf t := by
  obtain ⟨r, hr, rfl⟩ := List.mem_map.1 h
  have := rows_length_le_ncols t r hr
  simp only [List.length_append, List.length_replicate]
  omega

theorem getD_pad (r : List (List Char)) (k c : Nat) :
    (r ++ List.replicate k ([] : List Char)).getD c [] = r.getD c [] := by
  rcases Nat.lt_or_ge c r.length with h | h
  · rw [List.getD_eq_getElem _ _ (by simp; omega), List.getD_eq_getElem _ _ h]
    exact List.getElem_append_left h
  · have hrhs : r.getD c [] = [] := List.getD_eq_default _ _ h
    rw [hrhs]
    rcases Nat.lt_or_ge c (r.length + k) with h2 | h2
    · rw [List.getD_eq_getElem _ _ (by simp; omega)]
      rw [List.getElem_append_right (by omega)]
      simp
    · rw [List.getD_eq_default _ _ (by simp; omega)]

theorem sumEsc_pad (r : List (List Char)) (k : Nat) :
    sumEsc (r ++ List.replicate k ([] : List Char)) = sumEsc r := by
  unfold sumEsc
  rw [List.map_append, List.sum_append]
  have : (List.replicate k ([] : List Char)).map countEsc = List.replicate k 0 := by
    induction k with
    | zero => rfl
    | succ m ih => simp [List.replicate_succ, ih, countEsc_nil]
  rw [this]
  simp

theorem getD_map_enum {α β : Type} [Inhabited β] (rs : List α) (f : Nat × α → β) (ridx : Nat)
    (h : ridx < rs.length) (d : α) :
    (rs.enum.map f).getD ridx default = f (ridx, rs.getD ridx d) := by
  rw [List.getD_eq_getElem _ _ (by simpa using h)]
  rw [List.getElem_map, List.getElem_enum]
  rw [List.getD_eq_getElem _ _ h]

theorem zipWith_max_getD (a : List Nat) :
    ∀ (b : List Nat), a.length = b.length → ∀ c : Nat,
    (List.zipWith max a b).getD c 0 = max (a.getD c 0) (b.getD c 0) := by
  induction a with
  | nil =>
    intro b h c
    cases b with
    | nil => simp
    | cons y b' => simp at h
  | cons x a' ih =>
    intro b h c
    cases b with
    | nil => simp at h
    | cons y b' =>
      cases c with
      | zero => simp
      | succ c' =>
        simp only [List.zipWith_cons_cons, List.getD_cons_succ]
        exact ih b' (by simpa using h) c'

theorem widths_fold_getD (rs : List (List Nat)) :
    ∀ (ws : List Nat), (∀ r ∈ rs, r.length = ws.length) → ∀ c : Nat,
    (rs.foldl (fun w r => List.zipWith max w r) ws).getD c 0
      = max (ws.getD c 0) (maxFold (rs.map (fun r => r.getD c 0))) := by
  induction rs with
  | nil =>
    intro ws _ c
    simp [maxFold]
  | cons r rs' ih =>
    intro ws h c
    rw [List.foldl_cons]
    rw [ih (List.zipWith max ws r) ?_ c]
    · rw [zipWith_max_getD ws r (h r (List.mem_cons_self r rs')).symm c]
      rw [List.map_cons, maxFold_cons]
      omega
    · intro r' hr'
      rw [List.length_zipWith, h r (List.mem_cons_self r rs'),
        h r' (List.mem_cons_of_mem r hr')]
      omega

theorem widths_fold_length (rs : List (List Nat)) :
    ∀ (ws : List Nat), (∀ r ∈ rs, r.length = ws.length) →
    (rs.foldl (fun w r => List.zipWith max w r) ws).length = ws.length := by
  induction rs with
  | nil => intro ws _; rfl
  | cons r rs' ih =>
    intro ws h
    rw [List.foldl_cons, ih (List.zipWith max ws r) ?_]
    · rw [List.length_zipWith, h r (List.mem_cons_self r rs')]
      omega
    · intro r' hr'
      rw [List.length_zipWith, h r (List.mem_cons_self r rs'),
        h r' (List.mem_cons_of_mem r hr')]
      omega

theorem foldl_enumFrom_no_skip (rs : List (List (List Char))) :
    ∀ (j : Nat), 2 ≤ j → ∀ (ws : List Nat),
    (List.enumFrom j rs).foldl
        (fun ws p => if p.1 = 1 then ws else List.zipWith max ws (p.2.map List.length)) ws
      = rs.foldl (fun w r => List.zipWith max w (r.map List.length)) ws := by
  induction rs with
  | nil => intro j _ ws; rfl
  | cons r rs' ih =>
    intro j hj ws
    rw [List.enumFrom_cons, List.foldl_cons, List.foldl_cons]
    rw [if_neg (by omega)]
    exact ih (j+1) (by omega) _

theorem padded_col_len (t : Table) (row : List (List Char)) (hrow : row ∈ t.rows)
    (c : Nat) (hc : c < ncolsOf t) :
    ((row ++ List.replicate (ncolsOf t - row.length) []).map List.length).getD c 0
      = (row.getD c []).length := by
  have hle := rows_length_le_ncols t row hrow
  have hlen : (row ++ List.replicate (ncolsOf t - row.length) ([] : List Char)).length
      = ncolsOf t := by
    simp only [List.length_append, List.length_replicate]
    omega
  rw [List.getD_eq_getElem _ _ (by simp only [List.length_map]; omega)]
  rw [List.getElem_map]
  rw [show (row ++ List.replicate (ncolsOf t - row.length) ([] : List Char))[c]
      = (row ++ List.replicate (ncolsOf t - row.length) ([] : List Char)).getD c [] from
    (List.getD_eq_getElem _ _ (by omega)).symm]
  rw [getD_pad]

theorem getD_map_of_lt (f : Nat → Nat) (l : List Nat) (n : Nat) (h : n < l.length) :
    (l.map f).getD n 0 = f (l.getD n 0) := by
  rw [List.getD_eq_getElem _ _ (by simpa using h), List.getElem_map,
    List.getD_eq_getElem _ _ h]

theorem widths_fold_eq (t : Table) (h2 : 2 ≤ t.rows.length)
    (r0 r1 : List (List Char)) (rest : List (List (List Char)))
    (hrows : t.rows = r0 :: r1 :: rest) :
    (paddedRows t).enum.foldl
      (fun ws p => if p.1 = 1 then ws else List.zipWith max ws (p.2.map List.length))
      (List.replicate (ncolsOf t) 0)
      = (((r0 ++ List.replicate (ncolsOf t - r0.length) []).map List.length)
          :: (rest.map (fun r => r ++ List.replicate (ncolsOf t - r.length) [])).map
              (List.map List.length)).foldl
          (fun w r => List.zipWith max w r) (List.replicate (ncolsOf t) 0) := by
  have hpad : paddedRows t
      = (r0 ++ List.replicate (ncolsOf t - r0.length) [])
        :: (r1 ++ List.replicate (ncolsOf t - r1.length) [])
        :: rest.map (fun r => r ++ List.replicate (ncolsOf t - r.length) []) := by
    unfold paddedRows
    rw [hrows]
    rfl
  rw [hpad]
  rw [show (((r0 ++ List.replicate (ncolsOf t - r0.length) [])
      :: (r1 ++ List.replicate (ncolsOf t - r1.length) [])
      :: rest.map (fun r => r ++ List.replicate (ncolsOf t - r.length) [])).enum)
      = (0, r0 ++ List.replicate (ncolsOf t - r0.length) [])
        :: (1, r1 ++ List.replicate (ncolsOf t - r1.length) [])
        :: List.enumFrom 2 (rest.map (fun r => r ++ List.replicate (ncolsOf t - r.length) []))
    from rfl]
  rw [List.foldl_cons, List.foldl_cons, if_pos (by simp), if_neg (by simp)]
  rw [foldl_enumFrom_no_skip _ 2 (Nat.le_refl 2)]
  rw [List.foldl_cons]
  simp only [List.foldl_map]

/-- Column width formula of `align_table`: for every column index below
`ncols`, the width is the maximum cell length in that column over all
rows except the delimiter row, floored at 3. -/
theorem widthsOf_getD (t : Table) (h2 : 2 ≤ t.rows.length) (c : Nat) (hc : c < ncolsOf t) :
    (widthsOf t).getD c 0
      = max 3 (maxFold ((t.rows.eraseIdx 1).map (fun row => (row.getD c []).length))) := by
  obtain ⟨r0, r1, rest, hrows⟩ : ∃ r0 r1 rest, t.rows = r0 :: r1 :: rest := by
    obtain ⟨r0, l, h⟩ := List.exists_cons_of_ne_nil
      (l := t.rows) (by intro h; rw [h] at h2; simp at h2)
    obtain ⟨r1, rest, hl⟩ := List.exists_cons_of_ne_nil
      (l := l) (by intro hnil; rw [h, hnil] at h2; simp at h2)
    exact ⟨r0, r1, rest, by rw [h, hl]⟩
  have hmem_len : ∀ rl ∈ ((r0 ++ List.replicate (ncolsOf t - r0.length) []).map List.length)
      :: (rest.map (fun r => r ++ List.replicate (ncolsOf t - r.length) [])).map
          (List.map List.length),
      rl.length = (List.replicate (ncolsOf t) 0).length := by
    intro rl hrl
    rw [List.length_replicate]
    have hpadmem : ∀ r ∈ t.rows,
        (r ++ List.replicate (ncolsOf t - r.length) ([] : List Char)).length = ncolsOf t := by
      intro r hr
      have := rows_length_le_ncols t r hr
      simp only [List.length_append, List.length_replicate]
      omega
    rcases List.mem_cons.1 hrl with h | h
    · subst h
      rw [List.length_map]
      exact hpadmem r0 (by rw [hrows]; exact List.mem_cons_self _ _)
    · obtain ⟨p, hp, rfl⟩ := List.mem_map.1 h
      obtain ⟨r, hr, rfl⟩ := List.mem_map.1 hp
      rw [List.length_map]
      exact hpadmem r (by rw [hrows]; exact List.mem_cons_of_mem _ (List.mem_cons_of_mem _ hr))
  unfold widthsOf
  rw [widths_fold_eq t h2 r0 r1 rest hrows]
  rw [getD_map_of_lt _ _ c (by rw [widths_fold_length _ _ hmem_len, List.length_replicate]; omega)]
  rw [widths_fold_getD _ _ hmem_len c]
  rw [show (List.replicate (ncolsOf t) 0).getD c 0 = 0 from by
    rw [List.getD_eq_getElem _ _ (by simpa using hc)]
    simp]
  rw [hrows]
  rw [show (r0 :: r1 :: rest).eraseIdx 1 = r0 :: rest from rfl]
  rw [List.map_cons, maxFold_cons, List.map_cons, maxFold_cons]
  rw [padded_col_len t r0 (by rw [hrows]; exact List.mem_cons_self _ _) c hc]
  rw [List.map_map, List.map_map]
  have hmapeq : List.map (((fun r => r.getD c 0) ∘ List.map List.length) ∘ fun r =>
      r ++ List.replicate (ncolsOf t - r.length) []) rest
      = rest.map (fun row => (row.getD c []).length) := by
    refine List.map_congr_left ?_
    intro r hr
    exact padded_col_len t r
      (by rw [hrows]; exact List.mem_cons_of_mem _ (List.mem_cons_of_mem _ hr)) c hc
  rw [hmapeq]
  omega

theorem getD_map_lt {α β : Type} (f : α → β) (l : List α) (n : Nat) (h : n < l.length)
    (d : α) (d' : β) : (l.map f).getD n d' = f (l.getD n d) := by
  rw [List.getD_eq_getElem _ _ (by simpa using h), List.getElem_map,
    List.getD_eq_getElem _ _ h]

theorem getD_map_enum' {α β : Type} (rs : List α) (f : Nat × α → β) (ridx : Nat)
    (h : ridx < rs.length) (d : α) (d' : β) :
    (rs.enum.map f).getD ridx d' = f (ridx, rs.getD ridx d) := by
  rw [List.getD_eq_getElem _ _ (by simpa using h), List.getElem_map, List.getElem_enum,
    List.getD_eq_getElem _ _ h]

/-- Every rendered line of `align_table` is a pipe-joined row of exactly
`ncols` cells. -/
theorem align_table_parts (t : Table) (line : List Char) (h : line ∈ align_table t) :
    ∃ parts, parts.length = ncolsOf t ∧ line = renderCells parts := by
  unfold align_table at h
  obtain ⟨p, hp, rfl⟩ := List.mem_map.1 h
  by_cases h1 : p.1 = 1
  · rw [if_pos h1]
    exact ⟨_, by simp, rfl⟩
  · rw [if_neg h1]
    exact ⟨_, by simp, rfl⟩

/-- The rendered form of each non-delimiter row. -/
theorem align_table_getD_body (t : Table) (ridx : Nat) (h : ridx < t.rows.length)
    (hne : ridx ≠ 1) :
    (align_table t).getD ridx []
      = renderCells ((List.range (ncolsOf t)).map
          (fun cidx => ljust (((paddedRows t).getD ridx []).getD cidx [])
            ((widthsOf t).getD cidx 0))) := by
  simp only [align_table]
  rw [getD_map_enum' (paddedRows t) _ ridx (by simpa [paddedRows] using h) [] []]
  rw [if_neg hne]

theorem countEsc_align_body (t : Table) (ridx : Nat) (h : ridx < t.rows.length)
    (hne : ridx ≠ 1) :
    countEsc ((align_table t).getD ridx []) = sumEsc (t.rows.getD ridx []) := by
  rw [align_table_getD_body t ridx h hne, countEsc_renderCells]
  have hpr : (paddedRows t).getD ridx []
      = (t.rows.getD ridx []) ++ List.replicate (ncolsOf t - (t.rows.getD ridx []).length) [] := by
    unfold paddedRows
    rw [getD_map_lt _ _ ridx h []]
  have hprlen : ((paddedRows t).getD ridx []).length = ncolsOf t := by
    have hle := rows_length_le_ncols t (t.rows.getD ridx []) (by
      rw [List.getD_eq_getElem _ _ h]
      exact List.getElem_mem _)
    rw [hpr]
    simp only [List.length_append, List.length_replicate]
    omega
  unfold sumEsc
  rw [List.map_map]
  rw [show (List.range (ncolsOf t)).map (countEsc ∘ fun cidx =>
      ljust (((paddedRows t).getD ridx []).getD cidx []) ((widthsOf t).getD cidx 0))
      = (List.range (ncolsOf t)).map (fun cidx =>
          countEsc (((paddedRows t).getD ridx []).getD cidx [])) from by
    refine List.map_congr_left ?_
    intro c _
    exact countEsc_ljust _ _]
  rw [show (List.range (ncolsOf t)).map (fun cidx =>
      countEsc (((paddedRows t).getD ridx []).getD cidx []))
      = ((paddedRows t).getD ridx []).map countEsc from by
    rw [← hprlen]
    rw [show (List.range ((paddedRows t).getD ridx []).length).map (fun cidx =>
        countEsc (((paddedRows t).getD ridx []).getD cidx []))
        = ((List.range ((paddedRows t).getD ridx []).length).map
            (fun cidx => ((paddedRows t).getD ridx []).getD cidx [])).map countEsc from by
      rw [List.map_map]
      rfl]
    rw [getD_range_map]]
  rw [hpr, List.map_append, List.sum_append]
  have hz : ((List.replicate (ncolsOf t - (t.rows.getD ridx []).length)
      ([] : List Char)).map countEsc).sum = 0 := by
    induction (ncolsOf t - (t.rows.getD ridx []).length) with
    | zero => rfl
    | succ m ih => simpa [List.replicate_succ, countEsc_nil] using ih
  rw [hz]
  omega

/-! ### Invariants of the `find_tables` scan -/

theorem absorbCount_le (l : List (List Char)) : absorbCount l ≤ l.length := by
  induction l with
  | nil => simp [absorbCount]
  | cons a r ih =>
    simp only [absorbCount]
    by_cases h : absorbable a
    · rw [if_pos h]; simpa using ih
    · rw [if_neg h]; simp

theorem ftGo_succ (L : List (List Char)) (fuel i : Nat) (st : FenceSt) (acc : List Table) :
    ftGo L (fuel+1) i st acc =
      if i < L.length then
        (if (toggle_fence st (L.getD i [])).in_fence then
          ftGo L fuel (i+1) (toggle_fence st (L.getD i [])) acc
        else if (L.getD i []).contains '|' && decide (i+1 < L.length)
            && is_delimiter_row (L.getD (i+1) []) then
          ftGo L fuel (i + absorbCount (L.drop i)) (toggle_fence st (L.getD i []))
            (acc ++ [⟨i, (i : Int) + absorbCount (L.drop i) - 1,
              (List.range' i (absorbCount (L.drop i))).map (fun k => split_row (L.getD k []))⟩])
        else ftGo L fuel (i+1) (toggle_fence st (L.getD i [])) acc)
      else acc := rfl

theorem is_delimiter_row_absorbable (l : List Char) (h : is_delimiter_row l = true) :
    absorbable l = true := by
  have hp : l.contains '|' = true := by
    by_contra hc
    have hc' : l.contains '|' = false := by
      cases hcc : l.contains '|'
      · rfl
      · exact absurd hcc hc
    unfold is_delimiter_row at h
    rw [if_pos (by rw [hc']; rfl)] at h
    cases h
  exact absorbable_of_pipe_not_fence l hp (is_delimiter_row_not_fence l h)

theorem is_delimiter_row_cells (l : List Char) (h : is_delimiter_row l = true) :
    2 ≤ (split_row l).length := by
  unfold is_delimiter_row at h
  by_cases hp : l.contains '|'
  · rw [if_neg (by simpa using hp), Bool.and_eq_true] at h
    simpa using h.1
  · rw [if_pos (by simpa using hp)] at h
    cases h

theorem ftGo_spec (L : List (List Char)) (fuel : Nat) :
    ∀ (i : Nat) (st : FenceSt) (acc : List Table),
    ∃ new, ftGo L fuel i st acc = acc ++ new ∧ TablesOrdered i new ∧ ∀ t ∈ new, TableInv L t := by
  induction fuel with
  | zero =>
    intro i st acc
    exact ⟨[], by simp [ftGo], ⟨by simp, by simp⟩, by simp⟩
  | succ f ih =>
    intro i st acc
    rw [ftGo_succ]
    by_cases hi : i < L.length
    · rw [if_pos hi]
      by_cases hfen : (toggle_fence st (L.getD i [])).in_fence
      · rw [if_pos hfen]
        obtain ⟨new, h1, h2, h3⟩ := ih (i+1) (toggle_fence st (L.getD i [])) acc
        exact ⟨new, h1, ⟨fun t ht => by have := h2.1 t ht; omega, h2.2⟩, h3⟩
      · rw [if_neg hfen]
        by_cases hdet : ((L.getD i []).contains '|' && decide (i+1 < L.length)
            && is_delimiter_row (L.getD (i+1) [])) = true
        · rw [if_pos hdet]
          simp only [Bool.and_eq_true, decide_eq_true_eq] at hdet
          obtain ⟨⟨hpipe, hi1⟩, hdelim⟩ := hdet
          set cnt := absorbCount (L.drop i) with hcnt
          set t0 : Table := ⟨i, (i : Int) + cnt - 1,
            (List.range' i cnt).map (fun k => split_row (L.getD k []))⟩ with ht0
          have hstart : t0.start = i := by rw [ht0]
          have hend : t0.end_ = (i : Int) + cnt - 1 := by rw [ht0]
          have hrows_eq : t0.rows = (List.range' i cnt).map (fun k => split_row (L.getD k [])) := by
            rw [ht0]
          have hrowslen : t0.rows.length = cnt := by rw [hrows_eq]; simp
          have hdropi : L.drop i = (L.getD i []) :: L.drop (i+1) := by
            rw [List.drop_eq_getElem_cons hi, List.getD_eq_getElem _ _ hi]
          have hdropi1 : L.drop (i+1) = (L.getD (i+1) []) :: L.drop (i+2) := by
            rw [List.drop_eq_getElem_cons hi1, List.getD_eq_getElem _ _ hi1]
          have hcnt_le : cnt ≤ L.length - i := by
            have := absorbCount_le (L.drop i)
            rw [List.length_drop] at this
            omega
          obtain ⟨new', h1, h2, h3⟩ := ih (i + cnt) (toggle_fence st (L.getD i []))
            (acc ++ [t0])
          refine ⟨t0 :: new', ?_, ?_, ?_⟩
          · rw [h1, List.append_assoc]
            rfl
          · refine ⟨?_, ?_⟩
            · intro t ht
              rcases List.mem_cons.1 ht with h | h
              · subst h; rw [hstart]
              · have := h2.1 t h
                omega
            · refine List.Pairwise.cons ?_ h2.2
              intro b hb
              have := h2.1 b hb
              rw [hstart, hrowslen]
              omega
          · intro t ht
            rcases List.mem_cons.1 ht with h | h
            · subst h
              by_cases hsf : startsFenceOf (L.getD i []) = true
              · have hcnt0 : cnt = 0 := by
                  rw [hcnt, hdropi]
                  simp only [absorbCount]
                  rw [if_neg (by
                    unfold absorbable
                    rw [hsf]
                    simp)]
                have hrows0 : t0.rows = [] := by
                  rw [hrows_eq, hcnt0]
                  rfl
                refine ⟨?_, ?_, ?_, Or.inl (by rw [hrows0]; rfl), fun _ => hrows0⟩
                · rw [hend, hstart, hrowslen]
                · rw [hstart, hrowslen]
                  omega
                · rw [hrowslen, hstart, hrows_eq]
              · have hsf' : startsFenceOf (L.getD i []) = false := by
                  cases hs : startsFenceOf (L.getD i [])
                  · rfl
                  · exact absurd hs hsf
                have habs0 : absorbable (L.getD i []) = true :=
                  absorbable_of_pipe_not_fence _ hpipe hsf'
                have habs1 : absorbable (L.getD (i+1) []) = true :=
                  is_delimiter_row_absorbable _ hdelim
                have hcnt2 : 2 ≤ cnt := by
                  rw [hcnt, hdropi, hdropi1]
                  simp only [absorbCount]
                  rw [if_pos habs0, if_pos habs1]
                  omega
                have hrows2 : 2 ≤ t0.rows.length := by rw [hrowslen]; exact hcnt2
                have hmemdelim : split_row (L.getD (i+1) []) ∈ t0.rows := by
                  rw [hrows_eq]
                  refine List.mem_map_of_mem _ ?_
                  exact List.mem_range'.2 ⟨1, by omega, by omega⟩
                refine ⟨?_, ?_, ?_, Or.inr ⟨hrows2, ?_⟩, fun habs => absurd habs hsf⟩
                · rw [hend, hstart, hrowslen]
                · rw [hstart, hrowslen]
                  omega
                · rw [hrowslen, hstart, hrows_eq]
                · unfold acceptedB
                  rw [hstart, hdelim]
                  have hmax : 2 ≤ maxFold (t0.rows.map List.length) := by
                    have hlen2 := is_delimiter_row_cells _ hdelim
                    have := le_maxFold_of_mem (List.mem_map_of_mem List.length hmemdelim)
                    omega
                  rw [decide_eq_true hrows2, decide_eq_true hmax]
                  rfl
            · exact h3 t h
        · rw [if_neg hdet]
          obtain ⟨new, h1, h2, h3⟩ := ih (i+1) (toggle_fence st (L.getD i [])) acc
          exact ⟨new, h1, ⟨fun t ht => by have := h2.1 t ht; omega, h2.2⟩, h3⟩
    · rw [if_neg hi]
      exact ⟨[], by simp, ⟨by simp, by simp⟩, by simp⟩

/-- The `find_tables` result: ordered, disjoint tables, each satisfying
the structural invariant. -/
theorem find_tables_spec (L : List (List Char)) :
    ∃ ts, find_tables L = ts ∧ TablesOrdered 0 ts ∧ ∀ t ∈ ts, TableInv L t := by
  obtain ⟨new, h1, h2, h3⟩ := ftGo_spec L (2 * L.length + 1) 0 ⟨false, none⟩ []
  exact ⟨new, by rw [find_tables, h1]; rfl, h2, h3⟩

/-! ### Slice and splice arithmetic -/

theorem getD_append_lt (l1 l2 : List (List Char)) (k : Nat) (h : k < l1.length) :
    (l1 ++ l2).getD k [] = l1.getD k [] := by
  rw [List.getD_eq_getElem _ _ (by simp; omega), List.getD_eq_getElem _ _ h]
  exact List.getElem_append_left h

theorem getD_append_ge (l1 l2 : List (List Char)) (k : Nat) (h : l1.length ≤ k) :
    (l1 ++ l2).getD k [] = l2.getD (k - l1.length) [] := by
  rcases Nat.lt_or_ge k (l1.length + l2.length) with h2 | h2
  · rw [List.getD_eq_getElem _ _ (by simp; omega),
      List.getD_eq_getElem _ _ (show k - l1.length < l2.length by omega)]
    exact List.getElem_append_right h
  · rw [List.getD_eq_default _ _ (by simp; omega), List.getD_eq_default _ _ (by omega)]

theorem getD_drop (l : List (List Char)) (b m : Nat) :
    (l.drop b).getD m [] = l.getD (b + m) [] := by
  rcases Nat.lt_or_ge (b + m) l.length with h | h
  · rw [List.getD_eq_getElem _ _ (by simp; omega), List.getD_eq_getElem _ _ h]
    exact List.getElem_drop _
  · rw [List.getD_eq_default _ _ (by simp; omega), List.getD_eq_default _ _ (by omega)]

theorem pySlice_of_ge (l : List (List Char)) (a b : Nat) (h : b ≤ a) :
    pySlice l a b = [] := by
  unfold pySlice
  refine List.drop_eq_nil_of_le ?_
  rw [List.length_take]
  omega

theorem pySlice_eq_map (l : List (List Char)) :
    ∀ (n a : Nat), a + n ≤ l.length →
    pySlice l a (a + n) = (List.range' a n).map (fun k => l.getD k []) := by
  intro n
  induction n with
  | zero =>
    intro a _
    rw [Nat.add_zero, pySlice_of_ge l a a (Nat.le_refl a)]
    rfl
  | succ m ih =>
    intro a hle
    have ha : a < l.length := by omega
    have h1 : (l.take (a + (m+1))).length = a + (m + 1) := by
      rw [List.length_take]
      omega
    rw [show pySlice l a (a + (m+1)) = (l.take (a + (m+1))).drop a from rfl]
    rw [List.drop_eq_getElem_cons (show a < (l.take (a + (m+1))).length by omega)]
    rw [List.getElem_take]
    have h2 : (l.take (a + (m+1))).drop (a + 1) = pySlice l (a+1) (a + 1 + m) := by
      rw [show a + 1 + m = a + (m + 1) from by omega]
      rfl
    rw [h2, ih (a+1) (by omega)]
    rw [show List.range' a (m+1) = a :: List.range' (a+1) m from rfl]
    rw [List.map_cons, List.getD_eq_getElem _ _ ha]

theorem pySlice_length (l : List (List Char)) (a b : Nat) (hab : a ≤ b)
    (hb : b ≤ l.length) : (pySlice l a b).length = b - a := by
  rw [show b = a + (b - a) from by omega, pySlice_eq_map l (b - a) a (by omega)]
  simp

theorem pySlice_congr (l1 l2 : List (List Char)) (a b : Nat) (hab : a ≤ b)
    (hb1 : b ≤ l1.length) (hb2 : b ≤ l2.length)
    (h : ∀ k, a ≤ k → k < b → l1.getD k [] = l2.getD k []) :
    pySlice l1 a b = pySlice l2 a b := by
  rw [show b = a + (b - a) from by omega] at hb1 hb2 ⊢
  rw [pySlice_eq_map l1 (b - a) a hb1, pySlice_eq_map l2 (b - a) a hb2]
  refine List.map_congr_left ?_
  intro k hk
  obtain ⟨j, hj, rfl⟩ := List.mem_range'.1 hk
  exact h _ (by omega) (by omega)

theorem splice_length (l new : List (List Char)) (a b : Nat) (hab : a ≤ b)
    (hb : b ≤ l.length) (hnew : new.length = b - a) :
    (splice l a b new).length = l.length := by
  unfold splice
  simp only [List.length_append, List.length_take, List.length_drop]
  omega

theorem splice_getD_lt (l new : List (List Char)) (a b k : Nat) (hk : k < a)
    (ha : a ≤ l.length) : (splice l a b new).getD k [] = l.getD k [] := by
  unfold splice
  rw [List.append_assoc, getD_append_lt _ _ k (by rw [List.length_take]; omega)]
  rw [List.getD_eq_getElem _ _ (by rw [List.length_take]; omega),
    List.getD_eq_getElem _ _ (by omega)]
  exact List.getElem_take l

theorem splice_getD_ge (l new : List (List Char)) (a b k : Nat) (hk : b ≤ k)
    (hab : a ≤ b) (hb : b ≤ l.length) (hnew : new.length = b - a) :
    (splice l a b new).getD k [] = l.getD k [] := by
  unfold splice
  rw [List.append_assoc, getD_append_ge _ _ k (by rw [List.length_take]; omega)]
  rw [List.length_take, show min a l.length = a from by omega]
  rw [getD_append_ge _ _ _ (by omega)]
  rw [getD_drop]
  congr 1
  omega

/-- Unfolding equation for `alignStep` (zeta-reduced). -/
theorem alignStep_eq (st : List (List Char) × Bool) (t : Table) :
    alignStep st t =
      if t.rows.length < 2 then st
      else if maxFold (t.rows.map List.length) < 2 then st
      else if !(is_delimiter_row (st.1.getD (t.start + 1) [])) then st
      else if pySlice st.1 t.start ((t.end_ + 1).toNat) ≠ align_table t
           then (splice st.1 t.start ((t.end_ + 1).toNat) (align_table t), true) else st := rfl

theorem align_table_nil (t : Table) (h : t.rows = []) : align_table t = [] := by
  simp [align_table, paddedRows, h]

/-- Main invariant of the reversed splice loop of `process_file`,
stated over the table list in document order via `foldr`: the rewritten
document has the same length, lines outside every table span are
untouched, and the changed flag accumulates exactly the per-table
comparisons against the original lines. -/
theorem foldr_alignStep_spec (L : List (List Char)) :
    ∀ (ts : List Table) (lo : Nat) (c0 : Bool),
    TablesOrdered lo ts → (∀ t ∈ ts, TableInv L t) →
    (ts.foldr (fun t s => alignStep s t) (L, c0)).1.length = L.length
    ∧ (∀ k, (∀ t ∈ ts, ¬ inSpan t k) →
        (ts.foldr (fun t s => alignStep s t) (L, c0)).1.getD k [] = L.getD k [])
    ∧ (ts.foldr (fun t s => alignStep s t) (L, c0)).2
        = (c0 || ts.any (fun t => tableDiffB L t)) := by
  intro ts
  induction ts with
  | nil =>
    intro lo c0 _ _
    exact ⟨rfl, fun _ _ => rfl, by simp⟩
  | cons t ts ih =>
    intro lo c0 hord hinv
    obtain ⟨hlo, hpw⟩ := hord
    rw [List.pairwise_cons] at hpw
    have hord' : TablesOrdered (t.start + t.rows.length) ts :=
      ⟨fun u hu => hpw.1 u hu, hpw.2⟩
    have hinv' : ∀ u ∈ ts, TableInv L u := fun u hu => hinv u (List.mem_cons_of_mem t hu)
    obtain ⟨ih1, ih2, ih3⟩ := ih (t.start + t.rows.length) c0 hord' hinv'
    obtain ⟨hend, hfit, -, hacc, -⟩ := hinv t (List.mem_cons_self t ts)
    have houter : ∀ k, k < t.start + t.rows.length →
        (ts.foldr (fun t s => alignStep s t) (L, c0)).1.getD k [] = L.getD k [] := by
      intro k hk
      refine ih2 k ?_
      intro u hu hspan
      have hb := hpw.1 u hu
      obtain ⟨hs1, -⟩ := hspan
      omega
    simp only [List.foldr_cons]
    rcases hacc with hdeg | ⟨h2le, haccB⟩
    · have hrows0 : t.rows = [] := List.length_eq_zero.mp hdeg
      have hstep : alignStep (ts.foldr (fun t s => alignStep s t) (L, c0)) t
          = ts.foldr (fun t s => alignStep s t) (L, c0) := by
        rw [alignStep_eq]
        rw [if_pos (show t.rows.length < 2 by omega)]
      rw [hstep]
      refine ⟨ih1, fun k hk => ih2 k (fun u hu => hk u (List.mem_cons_of_mem t hu)), ?_⟩
      rw [ih3]
      have hdiff : tableDiffB L t = false := by
        have h1 : pySlice L t.start (t.start + t.rows.length) = [] := by
          rw [hdeg, Nat.add_zero]
          exact pySlice_of_ge L _ _ (Nat.le_refl _)
        have h2 : align_table t = [] := align_table_nil t hrows0
        unfold tableDiffB
        rw [h1, h2]
        simp
      rw [List.any_cons, hdiff, Bool.false_or]
    · unfold acceptedB at haccB
      rw [Bool.and_eq_true, Bool.and_eq_true] at haccB
      obtain ⟨⟨-, hmax2⟩, hdel⟩ := haccB
      have hmax2' : 2 ≤ maxFold (t.rows.map List.length) := of_decide_eq_true hmax2
      have hrecheck : (ts.foldr (fun t s => alignStep s t) (L, c0)).1.getD (t.start + 1) []
          = L.getD (t.start + 1) [] := houter _ (by omega)
      have hslice : pySlice (ts.foldr (fun t s => alignStep s t) (L, c0)).1 t.start
            (t.start + t.rows.length)
          = pySlice L t.start (t.start + t.rows.length) :=
        pySlice_congr _ _ _ _ (by omega) (by rw [ih1]; exact hfit) hfit
          (fun k _ hk2 => houter k hk2)
      have hstop : (t.end_ + 1).toNat = t.start + t.rows.length := by
        rw [hend]
        omega
      have key : alignStep (ts.foldr (fun t s => alignStep s t) (L, c0)) t
          = (if pySlice L t.start (t.start + t.rows.length) ≠ align_table t
             then (splice (ts.foldr (fun t s => alignStep s t) (L, c0)).1 t.start
                 (t.start + t.rows.length) (align_table t), true)
             else ts.foldr (fun t s => alignStep s t) (L, c0)) := by
        rw [alignStep_eq]
        rw [if_neg (show ¬ t.rows.length < 2 by omega),
          if_neg (show ¬ maxFold (t.rows.map List.length) < 2 by omega)]
        rw [hrecheck, hdel]
        rw [if_neg (by simp)]
        rw [hstop, hslice]
      rw [key]
      by_cases hd : pySlice L t.start (t.start + t.rows.length) ≠ align_table t
      · rw [if_pos hd]
        have halen : (align_table t).length = t.rows.length := align_table_length t
        have hsplen := splice_length (ts.foldr (fun t s => alignStep s t) (L, c0)).1
          (align_table t) t.start (t.start + t.rows.length) (by omega)
          (by rw [ih1]; exact hfit) (by rw [halen]; omega)
        refine ⟨hsplen.trans ih1, ?_, ?_⟩
        · intro k hk
          have hknot := hk t (List.mem_cons_self t ts)
          rcases Nat.lt_or_ge k t.start with hlt | hge
          · have e1 := splice_getD_lt (ts.foldr (fun t s => alignStep s t) (L, c0)).1
              (align_table t) t.start (t.start + t.rows.length) k hlt (by rw [ih1]; omega)
            exact e1.trans (houter k (by omega))
          · have hge2 : t.start + t.rows.length ≤ k := by
              rcases Nat.lt_or_ge k (t.start + t.rows.length) with h2 | h2
              · exact absurd (show inSpan t k from ⟨hge, h2⟩) hknot
              · exact h2
            have e1 := splice_getD_ge (ts.foldr (fun t s => alignStep s t) (L, c0)).1
              (align_table t) t.start (t.start + t.rows.length) k hge2 (by omega)
              (by rw [ih1]; exact hfit) (by rw [halen]; omega)
            exact e1.trans (ih2 k (fun u hu => hk u (List.mem_cons_of_mem t hu)))
        · have hdiff : tableDiffB L t = true := by
            unfold tableDiffB
            exact decide_eq_true hd
          rw [List.any_cons, hdiff]
          simp
      · rw [if_neg hd]
        have hdiff : tableDiffB L t = false := by
          unfold tableDiffB
          exact decide_eq_false hd
        refine ⟨ih1, fun k hk => ih2 k (fun u hu => hk u (List.mem_cons_of_mem t hu)), ?_⟩
        rw [ih3, List.any_cons, hdiff, Bool.false_or]

theorem alignDocument_eq_foldr (L : List (List Char)) :
    alignDocument L = (find_tables L).foldr (fun t s => alignStep s t) (L, false) := by
  unfold alignDocument
  rw [List.foldl_reverse]

/-- Specification of the whole rewriter: line count preserved, lines
outside every detected span untouched, and the changed flag is the
disjunction of the per-table line comparisons. -/
theorem alignDocument_spec (L : List (List Char)) :
    (alignDocument L).1.length = L.length
    ∧ (∀ k, (∀ t ∈ find_tables L, ¬ inSpan t k) →
        (alignDocument L).1.getD k [] = L.getD k [])
    ∧ (alignDocument L).2 = (find_tables L).any (fun t => tableDiffB L t) := by
  obtain ⟨ts, hts, hord, hinv⟩ := find_tables_spec L
  have h := foldr_alignStep_spec L ts 0 false hord hinv
  rw [alignDocument_eq_foldr, hts]
  exact ⟨h.1, h.2.1, by rw [h.2.2, Bool.false_or]⟩

/-- If no line both contains a pipe and is followed by a delimiter row,
the scan loop never fires its detection branch. -/
theorem ftGo_of_noPair (L : List (List Char)) (hnp : noPairB L = true) :
    ∀ (fuel i : Nat) (st : FenceSt) (acc : List Table), ftGo L fuel i st acc = acc := by
  have hall : ∀ i, i < L.length →
      ((L.getD i []).contains '|' && decide (i+1 < L.length)
        && is_delimiter_row (L.getD (i+1) [])) = false := by
    intro i hi
    have hx := (List.all_eq_true.mp hnp) i (List.mem_range.mpr hi)
    simp only [Bool.not_eq_true'] at hx
    cases h1 : (L.getD i []).contains '|' <;> cases h2 : (decide (i+1 < L.length)) <;>
      cases h3 : is_delimiter_row (L.getD (i+1) []) <;> simp_all
  intro fuel
  induction fuel with
  | zero => intro i st acc; rfl
  | succ f ihf =>
    intro i st acc
    rw [ftGo_succ]
    by_cases hi : i < L.length
    · rw [if_pos hi]
      by_cases hf : (toggle_fence st (L.getD i [])).in_fence
      · rw [if_pos hf]
        exact ihf (i+1) _ acc
      · rw [if_neg hf, if_neg (by rw [hall i hi]; simp)]
        exact ihf (i+1) _ acc
    · rw [if_neg hi]

/-- With no pipe-plus-delimiter pair there are no tables at all. -/
theorem find_tables_of_noPair (L : List (List Char)) (hnp : noPairB L = true) :
    find_tables L = [] := ftGo_of_noPair L hnp _ 0 ⟨false, none⟩ []

/-! ### The claims -/

/-- C1: aligning is NOT idempotent.  On `exD1` the first pass renders
the width-3 left-aligned delimiter cell as `:--`, which fails the
aligner's own three-or-more-dash delimiter test; the second pass then
detects a table one line lower and rewrites the document again, so the
changed flag of the second run is `true`, not `false`. -/
theorem c1_second_pass_still_changes :
    (alignDocument ((alignDocument exD1).1)).2 = true := by decide

/-- C2 (counterexample): on the frozen three-line input the aligner
does not produce the claimed output: `|-|-|` has single-dash cells,
fails delimiter validation, so no table is detected and the document
passes through unchanged with `changed = false`. -/
theorem c2_scenario_counterexample :
    (alignDocument exD2).1
      ≠ [strChars "| a   | bb  |", strChars "| --- | --- |", strChars "| 1   | 22  |"]
    ∧ alignDocument exD2 = (exD2, false) := by decide

/-- C2 (amended): `|-|-|` is not a valid delimiter row, so the frozen
input passes through unchanged; with a valid three-dash delimiter row
the aligner produces exactly the claimed layout (column widths
`max(3,1,1) = 3` and `max(3,2,2) = 3`, left-justified cells). -/
theorem c2_scenario_amended :
    is_delimiter_row (strChars "|-|-|") = false
    ∧ alignDocument exD2 = (exD2, false)
    ∧ (alignDocument exD2v).1
        = [strChars "| a   | bb  |", strChars "| --- | --- |", strChars "| 1   | 22  |"]
    ∧ (alignDocument exD2v).2 = true := by decide

/-- C3 (counterexample): the code accepts the cell `: ---`, which has
interior whitespace between the colon and the dash run, so the claimed
strict characterization (no interior whitespace) disagrees with the
code on this row. -/
theorem c3_strict_delimiter_counterexample :
    is_delimiter_row (strChars "|: ---|---|") = true
    ∧ specDelimRowStrict (strChars "|: ---|---|") = false := by decide

/-- C3 (amended): a tokenized row is a delimiter row iff it has at
least 2 cells and every cell, after stripping one optional leading and
one optional trailing colon AND surrounding whitespace, is three or
more dashes and nothing else. -/
theorem c3_delimiter_row_amended (line : List Char) :
    is_delimiter_row line
      = (decide (2 ≤ (split_row line).length) && (split_row line).all specDelimCellAmended) :=
  is_delimiter_row_amended line

/-- C4 (counterexample): the fence toggle is applied BEFORE the
in-fence test, so the fence-closing second line of `exD4` (which
contains a pipe and precedes a delimiter row) IS taken as the header
line of a detected table, contradicting the claim. -/
theorem c4_fence_header_counterexample :
    startsFenceOf (exD4.getD 1 []) = true
    ∧ find_tables exD4 = [⟨1, 0, []⟩] := by decide

/-- C4 (amended): a fence-opening or fence-closing line can be taken
as the header of a detected table, but any such table is degenerate
(its absorb loop stops immediately, so it has no rows) and the
alignment pass always leaves it untouched. -/
theorem c4_fence_toggle_amended (L : List (List Char)) (t : Table)
    (ht : t ∈ find_tables L) (hf : startsFenceOf (L.getD t.start []) = true) :
    t.rows = [] ∧ ∀ st, alignStep st t = st := by
  obtain ⟨ts, hts, -, hinv⟩ := find_tables_spec L
  rw [hts] at ht
  have h0 := (hinv t ht).2.2.2.2 hf
  refine ⟨h0, fun st => ?_⟩
  rw [alignStep_eq, if_pos (show t.rows.length < 2 by simp [h0])]

theorem c4_fence_toggle_amended_witness :
    alignStep (exD4, false) ⟨1, 0, []⟩ = (exD4, false) :=
  (c4_fence_toggle_amended exD4 ⟨1, 0, []⟩ (by decide) (by decide)).2 (exD4, false)

/-- C5 (counterexample): the code's guard is `max(len(r)) < 2`, not
"fewer than 2 columns in any row": `exD5` contains a detected table
whose third row has a single cell, yet the table is aligned and its
third line modified. -/
theorem c5_ragged_row_counterexample :
    ((find_tables exD5).getD 0 ⟨0, 0, []⟩).rows.map List.length = [2, 2, 1]
    ∧ (alignDocument exD5).2 = true
    ∧ (alignDocument exD5).1.getD 2 [] ≠ exD5.getD 2 [] := by decide

/-- C5 (amended): a detected table is discarded (its span and the
changed flag left exactly as they were, no error surfaced) whenever it
has fewer than 2 rows, fewer than 2 columns in EVERY row (the maximum
cell count is below 2), or its second line fails the delimiter-row
re-check at alignment time. -/
theorem c5_guard_discard_amended (st : List (List Char) × Bool) (t : Table)
    (h : t.rows.length < 2 ∨ maxFold (t.rows.map List.length) < 2
      ∨ is_delimiter_row (st.1.getD (t.start + 1) []) = false) :
    alignStep st t = st := by
  rw [alignStep_eq]
  by_cases h1 : t.rows.length < 2
  · rw [if_pos h1]
  · rw [if_neg h1]
    by_cases h2 : maxFold (t.rows.map List.length) < 2
    · rw [if_pos h2]
    · rw [if_neg h2]
      rcases h with h | h | h
      · exact absurd h h1
      · exact absurd h h2
      · rw [if_pos (show (!is_delimiter_row (st.1.getD (t.start + 1) [])) = true by
          rw [h]; rfl)]

theorem c5_guard_discard_amended_witness :
    alignStep (exD5, false) ⟨0, -1, []⟩ = (exD5, false) :=
  c5_guard_discard_amended (exD5, false) ⟨0, -1, []⟩ (Or.inl (by decide))

/-- C6 (counterexample): a trailing `\|` is destroyed: in `exD6` the
header line ends in `\|`, whose pipe is stripped as the row's boundary
pipe, so the escape does not survive into the aligned output. -/
theorem c6_escaped_pipe_counterexample :
    countEsc (exD6.getD 0 []) = 1
    ∧ countEsc ((alignDocument exD6).1.getD 0 []) = 0
    ∧ (alignDocument exD6).2 = true := by decide

/-- C6 (amended): the scanner itself never splits at an escaped pipe
and never unescapes it: every `\|` that survives the initial
outer-boundary-pipe strip is preserved, in count, through tokenization
and through the rendering of every non-delimiter row. -/
theorem c6_escape_preservation_amended :
    (∀ line : List Char, sumEsc (split_row line) = countEsc (stripOuterPipes line))
    ∧ (∀ (t : Table) (ridx : Nat), ridx < t.rows.length → ridx ≠ 1 →
        countEsc ((align_table t).getD ridx []) = sumEsc (t.rows.getD ridx [])) :=
  ⟨sumEsc_split_row, fun t ridx h hne => countEsc_align_body t ridx h hne⟩

theorem c6_escape_preservation_amended_witness :
    sumEsc (split_row (strChars "|x\\|y|z|")) = countEsc (stripOuterPipes (strChars "|x\\|y|z|"))
    ∧ countEsc ((align_table exT6).getD 0 []) = sumEsc (exT6.rows.getD 0 []) :=
  ⟨c6_escape_preservation_amended.1 (strChars "|x\\|y|z|"),
   c6_escape_preservation_amended.2 exT6 0 (by decide) (by decide)⟩

/-- C7: code-span semantics of the row scanner.  (1) Outside a span a
pipe closes the current cell; (2) inside an open span a pipe is
literal buffered content; (3) a span opened by a `k`-run, traversing
content that contains no maximal `k`-run (runs of other lengths are
literal), is closed exactly at the next `k`-run, with all content
bytes and the closing run copied verbatim into the cell buffer; (4) an
unterminated span extends to end of line, absorbing all later pipes
into the final cell. -/
theorem c7_code_span_semantics :
    (∀ (fuel : Nat) (rest buf : List Char) (cells : List (List Char)),
      splitRowGo (fuel+1) ('|' :: rest) buf cells false none
        = splitRowGo fuel rest [] (cells ++ [trim buf]) false none)
    ∧ (∀ (fuel : Nat) (rest buf : List Char) (cells : List (List Char)) (k : Nat),
      splitRowGo (fuel+1) ('|' :: rest) buf cells true (some k)
        = splitRowGo fuel rest (buf ++ ['|']) cells true (some k))
    ∧ (∀ (content : List Char) (k : Nat) (rest2 buf : List Char) (cells : List (List Char)),
      0 < k → noRunB k content = true →
      content.getLast? ≠ some tickChar → rest2.head? ≠ some tickChar →
      splitRowGo (content ++ List.replicate k tickChar ++ rest2).length
          (content ++ List.replicate k tickChar ++ rest2) buf cells true (some k)
        = splitRowGo rest2.length rest2 (buf ++ content ++ List.replicate k tickChar) cells
            false none)
    ∧ (∀ (rest buf : List Char) (cells : List (List Char)) (k : Nat),
      noRunB k rest = true →
      splitRowGo rest.length rest buf cells true (some k) = cells ++ [trim (buf ++ rest)]) := by
  refine ⟨?_, ?_, ?_, ?_⟩
  · intro fuel rest buf cells
    rw [splitRowGo_pipe_step, if_pos rfl]
  · intro fuel rest buf cells k
    rw [splitRowGo_pipe_step, if_neg (by simp)]
  · intro content k rest2 buf cells hk hnr hlast hhd
    exact splitRowGo_span _ content k rest2 buf cells (Nat.le_refl _) hk hnr hlast hhd
  · intro rest buf cells k hnr
    exact splitRowGo_unterminated _ rest buf cells k (Nat.le_refl _) hnr

theorem c7_code_span_semantics_witness :
    splitRowGo 4 ('|' :: strChars "abc") [] [] false none
        = splitRowGo 3 (strChars "abc") [] ([] ++ [trim []]) false none
    ∧ splitRowGo 4 ('|' :: strChars "abc") (strChars "x") [] true (some 2)
        = splitRowGo 3 (strChars "abc") (strChars "x" ++ ['|']) [] true (some 2)
    ∧ splitRowGo (strChars "a|b" ++ List.replicate 1 tickChar ++ strChars "|c").length
          (strChars "a|b" ++ List.replicate 1 tickChar ++ strChars "|c") [] [] true (some 1)
        = splitRowGo (strChars "|c").length (strChars "|c")
            ([] ++ strChars "a|b" ++ List.replicate 1 tickChar) [] false none
    ∧ splitRowGo (strChars "a|b").length (strChars "a|b") [] [] true (some 1)
        = [] ++ [trim ([] ++ strChars "a|b")] :=
  ⟨c7_code_span_semantics.1 3 (strChars "abc") [] [],
   c7_code_span_semantics.2.1 3 (strChars "abc") (strChars "x") [] 2,
   c7_code_span_semantics.2.2.1 (strChars "a|b") 1 (strChars "|c") [] []
     (by decide) (by decide) (by decide) (by decide),
   c7_code_span_semantics.2.2.2 (strChars "a|b") [] [] 1 (by decide)⟩

/-- C8: for every table with at least the header and delimiter rows:
the column count is the maximum cell count over all rows; every padded
row has exactly `ncols` cells; every rendered line (delimiter row
included) is the rendering of exactly `ncols` cells; and each column's
width is `max 3` of the maximum cell length in that column over all
rows except the delimiter row (cells are stored trimmed). -/
theorem c8_column_geometry (t : Table) (h2 : 2 ≤ t.rows.length) :
    ncolsOf t = maxFold (t.rows.map List.length)
    ∧ (∀ pr ∈ paddedRows t, pr.length = ncolsOf t)
    ∧ (∀ line ∈ align_table t, ∃ parts, parts.length = ncolsOf t ∧ line = renderCells parts)
    ∧ (∀ c, c < ncolsOf t → (widthsOf t).getD c 0
        = max 3 (maxFold ((t.rows.eraseIdx 1).map (fun row => (row.getD c []).length)))) :=
  ⟨rfl, fun pr hpr => paddedRows_length t pr hpr,
   fun line hl => align_table_parts t line hl,
   fun c hc => widthsOf_getD t h2 c hc⟩

theorem c8_column_geometry_witness :
    (widthsOf exT8).getD 0 0
      = max 3 (maxFold ((exT8.rows.eraseIdx 1).map (fun row => (row.getD 0 []).length))) :=
  (c8_column_geometry exT8 (by decide)).2.2.2 0 (by decide)

/-- C9: the changed flag is true iff some detected table's rendered
lines differ from its original lines in the document; a document with
no pipe-line-followed-by-delimiter-row pair passes through unchanged
with `changed = false`; and an unchanged document is never written
back. -/
theorem c9_changed_flag (L : List (List Char)) :
    ((alignDocument L).2 = (find_tables L).any (fun t => tableDiffB L t))
    ∧ (noPairB L = true → alignDocument L = (L, false))
    ∧ ((alignDocument L).2 = false → writesBack L = false) := by
  refine ⟨(alignDocument_spec L).2.2, ?_, fun h => h⟩
  intro hnp
  rw [alignDocument_eq_foldr, find_tables_of_noPair L hnp]
  rfl

theorem c9_changed_flag_witness :
    alignDocument [strChars "plain text"] = ([strChars "plain text"], false) :=
  (c9_changed_flag [strChars "plain text"]).2.1 (by decide)

/-- C10: for every document the rewritten line list has exactly the
input's length, and every detected table satisfies
`len(align_table t) = len(t.rows)` and `end - start + 1 = len(t.rows)`,
so each splice replaces a line range by an equal-length range. -/
theorem c10_line_count_preserved (L : List (List Char)) :
    (alignDocument L).1.length = L.length
    ∧ ∀ t ∈ find_tables L, (align_table t).length = t.rows.length
        ∧ ((t.end_ : Int) - t.start + 1) = t.rows.length := by
  refine ⟨(alignDocument_spec L).1, ?_⟩
  intro t ht
  obtain ⟨ts, hts, -, hinv⟩ := find_tables_spec L
  rw [hts] at ht
  have hend := (hinv t ht).1
  exact ⟨align_table_length t, by rw [hend]; ring⟩

theorem c10_line_count_preserved_witness :
    (align_table exT10).length = exT10.rows.length
    ∧ ((exT10.end_ : Int) - exT10.start + 1) = exT10.rows.length :=
  (c10_line_count_preserved exD2v).2 exT10 (by decide)
